import Mathlib

/-!
Verification development for the clink toolchain: a shallow embedding of the
tokenizer output, the structural parser (bracket pass and colon/split pass),
the module resolver, the AST builder, the tree-walking interpreter and the
semantics of the code produced by the native code generator, together with
theorems settling the specification claims.

Conventions of the embedding:
* Rust `Vec<String>` qualified paths become `List String`.
* Rust `HashMap` tables become association lists with first-match lookup;
  keys are kept unique by the operations that build them.
* Byte I/O is modelled by explicit input/output lists of byte values.
* Unbounded native recursion is modelled by a fuel parameter; running out of
  fuel is the distinguished error `OutOfFuel`.
* A Rust `unwrap()` panic on a missing map entry is modelled by a
  distinguished error value, never conflated with the toolchain's own
  `ParseError` results.
-/

namespace Clink

abbrev Path := List String

/-- Tokens, from `src/parser.rs` (`enum Token`). -/
inductive Token where
  | Bang
  | Question
  | Colon
  | Semicolon
  | At
  | Hash
  | LBracket
  | RBracket
  | Bracket (ts : List Token)
  | Split (l r : List Token)
  | Id (i : Path)

/-- AST nodes, from `src/parser.rs` (`enum AST`). -/
inductive AST where
  | Left
  | Right
  | Print
  | Read
  | Split (l r : List AST)
  | Bracketed (b : List AST)
  | Id (i : Path)

/-- Parse errors, from `src/parser.rs` (`enum ParseError`), restricted to the
constructors reachable in the embedded fragment, plus two model-only values:
`PanicNoImports` models the `imports.get(&dirn).unwrap()` panic in
`parse_funcs`, and `OutOfFuel` models native stack exhaustion. -/
inductive ParseError where
  | ExpectedPackageName
  | CannotDefineFunctionOutsidePackage (i : Path)
  | FunctionDefinedTwice (s : String)
  | UnknownFunction (i : Path)
  | UnknownPackage (i : Path)
  | AmbiguousReference (i : Path)
  | UnknownAssociativity
  | PanicNoImports
  | OutOfFuel
deriving DecidableEq

/-- First-match lookup in an association list keyed by qualified paths
(the model of `HashMap::get`). -/
def lookupP {α : Type} (p : Path) : List (Path × α) → Option α
  | [] => none
  | (q, v) :: rest => if q = p then some v else lookupP p rest

/-- Removal of a key (the model of `HashMap::remove`). -/
def removeP {α : Type} (p : Path) : List (Path × α) → List (Path × α)
  | [] => []
  | (q, v) :: rest => if q = p then removeP p rest else (q, v) :: removeP p rest

/-- Key-membership test (the model of `HashMap::contains_key`). -/
def containsP {α : Type} (p : Path) (l : List (Path × α)) : Bool :=
  (lookupP p l).isSome

/-! ### The bracket pass (`parse_brackets` / `parse_brackets_each`)

The Rust code is a recursive descent over one shared iterator.  Reaching the
end of input with groups still open wraps each open group into its parent
(`closeAll`); a `)` at top level returns the tokens collected so far and the
iterator — hence the rest of the input — is dropped. -/

/-- Wrap the still-open groups of the stack around the current group, exactly
as the nested `parse_brackets_each` calls return on end of input. -/
def closeAll : List Token → List (List Token) → List Token
  | cur, [] => cur
  | cur, outer :: rest => closeAll (outer ++ [Token.Bracket cur]) rest

/-- State-machine form of `parse_brackets_each`: `cur` is the group being
collected, `stack` the groups of the enclosing levels (innermost first). -/
def pbGo : List Token → List Token → List (List Token) → List Token
  | [], cur, stack => closeAll cur stack
  | Token.LBracket :: ts, cur, stack => pbGo ts [] (cur :: stack)
  | Token.RBracket :: ts, cur, stack =>
    match stack with
    | [] => cur
    | outer :: rest => pbGo ts (outer ++ [Token.Bracket cur]) rest
  | t :: ts, cur, stack => pbGo ts (cur ++ [t]) stack

/-- `parse_brackets` from `src/parser.rs`; the Rust version returns
`Result` but never constructs an error, so the model is total. -/
def parse_brackets (ts : List Token) : List Token :=
  pbGo ts [] []

/-! ### The colon/split pass (`parse_colon`) -/

/-- Loop body of `parse_colon`: `left`/`right` are the two accumulators and
`sp` records whether a top-level `:` has been seen. -/
def pcGo : List Token → List Token → List Token → Bool → Except ParseError (List Token)
  | [], left, right, sp =>
    if sp then .ok [Token.Split left right] else .ok left
  | Token.Colon :: ts, left, right, sp =>
    if sp then .error .UnknownAssociativity else pcGo ts left right true
  | Token.Bracket g :: ts, left, right, sp =>
    match pcGo g [] [] false with
    | .error e => .error e
    | .ok g' =>
      if sp then pcGo ts left (right ++ [Token.Bracket g']) sp
      else pcGo ts (left ++ [Token.Bracket g']) right sp
  | t :: ts, left, right, sp =>
    if sp then pcGo ts left (right ++ [t]) sp else pcGo ts (left ++ [t]) right sp
termination_by ts _ _ _ => sizeOf ts

/-- `parse_colon` from `src/parser.rs`. -/
def parse_colon (ts : List Token) : Except ParseError (List Token) :=
  pcGo ts [] [] false

/-! ### The AST builder (`parse_functions`) -/

theorem sizeOf_list_append {α : Type} [SizeOf α] (l1 l2 : List α) :
    sizeOf (l1 ++ l2) + 1 = sizeOf l1 + sizeOf l2 := by
  induction l1 with
  | nil => simp; omega
  | cons a l ih => simp [List.cons_append]; omega

theorem sizeOf_list_reverse {α : Type} [SizeOf α] (l : List α) :
    sizeOf l.reverse = sizeOf l := by
  induction l with
  | nil => rfl
  | cons a l ih =>
    rw [List.reverse_cons]
    have := sizeOf_list_append l.reverse [a]
    simp at this ⊢
    omega

/-- Loop of `parse_functions`, iterating over the reversed token list.  The
first argument is the token list already reversed (the Rust
`func.into_iter().rev()`), the second the `current` accumulator that nodes
are pushed onto. -/
def buildRev : List Token → List AST → List AST
  | [], acc => acc
  | Token.Bracket g :: ts, acc =>
    buildRev ts
      (if acc.isEmpty then buildRev g.reverse []
       else acc ++ [AST.Bracketed (buildRev g.reverse [])])
  | Token.Split l r :: ts, acc =>
    buildRev ts (acc ++ [AST.Split (buildRev l.reverse []) (buildRev r.reverse [])])
  | Token.Bang :: ts, acc => buildRev ts (acc ++ [AST.Left])
  | Token.Question :: ts, acc => buildRev ts (acc ++ [AST.Right])
  | Token.At :: ts, acc => buildRev ts (acc ++ [AST.Read])
  | Token.Hash :: ts, acc => buildRev ts (acc ++ [AST.Print])
  | Token.Id i :: ts, acc => buildRev ts (acc ++ [AST.Id i])
  | _ :: ts, acc => buildRev ts acc
termination_by ts _ => sizeOf ts
decreasing_by
  all_goals simp_wf
  all_goals try simp [sizeOf_list_reverse]
  all_goals omega

/-- `parse_functions` from `src/parser.rs`: build a function body's AST from
its bracket/split token tree. -/
def parse_functions (ts : List Token) : List AST :=
  buildRev ts.reverse []

/-- The node one token maps to in the AST builder when the accumulator is
nonempty (`none` for the tokens the builder silently skips). -/
def nodeOf : Token → Option AST
  | Token.Bang => some AST.Left
  | Token.Question => some AST.Right
  | Token.At => some AST.Read
  | Token.Hash => some AST.Print
  | Token.Bracket g => some (AST.Bracketed (parse_functions g))
  | Token.Split l r => some (AST.Split (parse_functions l) (parse_functions r))
  | Token.Id i => some (AST.Id i)
  | _ => none

/-- Tokens that survive the AST builder (everything except the structural
sigils that the earlier passes have consumed). -/
def goodTok : Token → Bool
  | Token.Colon => false
  | Token.Semicolon => false
  | Token.LBracket => false
  | Token.RBracket => false
  | _ => true

/-- Bracket-group tokens. -/
def isBracketTok : Token → Bool
  | Token.Bracket _ => true
  | _ => false

/-- `Id` tokens. -/
def isIdTok : Token → Bool
  | Token.Id _ => true
  | _ => false

/-- Terminator tokens. -/
def isSemicolonTok : Token → Bool
  | Token.Semicolon => true
  | _ => false

/-! ### Id occurrences in token trees and ASTs -/

/-- All `Id` paths occurring anywhere in a token list, including inside
`Bracket` and `Split` nodes. -/
def tokIdsList : List Token → List Path
  | [] => []
  | Token.Id i :: ts => i :: tokIdsList ts
  | Token.Bracket g :: ts => tokIdsList g ++ tokIdsList ts
  | Token.Split l r :: ts => tokIdsList l ++ tokIdsList r ++ tokIdsList ts
  | _ :: ts => tokIdsList ts
termination_by ts => sizeOf ts

/-- All `Id` paths occurring anywhere in an AST body, including inside
`Split` and `Bracketed` nodes. -/
def astIdsList : List AST → List Path
  | [] => []
  | AST.Id i :: b => i :: astIdsList b
  | AST.Bracketed c :: b => astIdsList c ++ astIdsList b
  | AST.Split l r :: b => astIdsList l ++ astIdsList r ++ astIdsList b
  | _ :: b => astIdsList b
termination_by b => sizeOf b

/-! ### The reference resolver (`parse_funcs`)

`parse_funcs` is demand-driven: it removes the current function from the raw
table, rewrites each embedded `Id` to the qualified path found by the
prefix/import search, parses the rewritten body, stores it in `func_defs`,
and recurses into every path the body referenced. -/

/-- The raw-function table built by `scan_dir`. -/
abbrev Fns := List (Path × List Token)

/-- The resolved program table (`func_defs`). -/
abbrev Defs := List (Path × List AST)

/-- Per-file import sets (`imports: HashMap<file, HashSet<package>>`),
the set modelled as a list. -/
abbrev Imports := List (Path × List Path)

/-- The match test applied to a candidate qualified path `m`:
`current == &m || functions.contains_key(&m) || func_defs.contains_key(&m)`. -/
def matchB (current : Path) (fns : Fns) (defs : Defs) (m : Path) : Bool :=
  decide (current = m) || containsP m fns || containsP m defs

/-- The nonempty prefixes of a path, shortest first — the successive values
of `ds` in the resolver's `for d in &dirn` loop. -/
def prefixesOf (l : Path) : List Path :=
  (List.range l.length).map (fun i => l.take (i + 1))

/-- Walk a list of candidate prefixes, threading the `found` option exactly
as the Rust loops do: a second hit while `found` is already set is a fatal
`AmbiguousReference`. -/
def scanPrefixes (mtch : Path → Bool) (i : Path) :
    List Path → Option Path → Except ParseError (Option Path)
  | [], found => .ok found
  | pre :: rest, found =>
    if mtch (pre ++ i) then
      match found with
      | none => scanPrefixes mtch i rest (some (pre ++ i))
      | some _ => .error (.AmbiguousReference i)
    else scanPrefixes mtch i rest found

/-- Resolution of one embedded `Id` reference (the body of the
`if let Token::Id(id) = token` branch of `parse_funcs`).  Looking up the
recorded imports of a file that never imported anything is an `unwrap()` on
`None` in the Rust code; the model returns `PanicNoImports` there. -/
def resolveId (current dirn : Path) (fns : Fns) (defs : Defs)
    (imports : Imports) (i : Path) : Except ParseError Path :=
  if matchB current fns defs i then .ok i
  else
    match scanPrefixes (matchB current fns defs) i (prefixesOf dirn) none with
    | .error e => .error e
    | .ok (some x) => .ok x
    | .ok none =>
      match lookupP dirn imports with
      | none => .error .PanicNoImports
      | some imps =>
        match scanPrefixes (matchB current fns defs) i
            (imps.flatMap prefixesOf) none with
        | .error e => .error e
        | .ok (some x) => .ok x
        | .ok none => .error (.UnknownFunction i)

/-- The token loop of `parse_funcs`: rewrite every `Id` to its resolved path
(`new_f`) and collect the resolved paths (`to_parse`). -/
def resolveBody (current dirn : Path) (fns : Fns) (defs : Defs)
    (imports : Imports) : List Token → Except ParseError (List Token × List Path)
  | [] => .ok ([], [])
  | Token.Id i :: ts =>
    match resolveId current dirn fns defs imports i with
    | .error e => .error e
    | .ok x =>
      match resolveBody current dirn fns defs imports ts with
      | .error e => .error e
      | .ok (nf, tp) => .ok (Token.Id x :: nf, x :: tp)
  | t :: ts =>
    match resolveBody current dirn fns defs imports ts with
    | .error e => .error e
    | .ok (nf, tp) => .ok (t :: nf, tp)

mutual

/-- `parse_funcs` from `src/parser.rs`, with a fuel bound standing in for
the native call stack. -/
def parse_funcs : Nat → Path → Defs → Fns → Imports → Except ParseError (Defs × Fns)
  | 0, _, _, _, _ => .error .OutOfFuel
  | fuel + 1, current, defs, fns, imports =>
    match lookupP current fns with
    | none => .ok (defs, fns)
    | some f =>
      let dirn := current.dropLast
      let fns' := removeP current fns
      match resolveBody current dirn fns' defs imports f with
      | .error e => .error e
      | .ok (new_f, to_parse) =>
        match parse_colon (parse_brackets new_f) with
        | .error e => .error e
        | .ok pc =>
          parse_funcs_list fuel to_parse (defs ++ [(current, parse_functions pc)])
            fns' imports
termination_by fuel _ _ _ _ => (fuel, 0)

/-- The `for mut t_p in to_parse` loop at the end of `parse_funcs`. -/
def parse_funcs_list : Nat → List Path → Defs → Fns → Imports → Except ParseError (Defs × Fns)
  | _, [], defs, fns, _ => .ok (defs, fns)
  | fuel, x :: xs, defs, fns, imports =>
    match parse_funcs fuel x defs fns imports with
    | .error e => .error e
    | .ok (d, f) => parse_funcs_list fuel xs d f imports
termination_by fuel xs _ _ _ => (fuel, xs.length + 1)

end

/-! ### The tree-walking interpreter (`interpreter.rs`)

The bit-stack is a `List Bool` whose head is the top (Rust pushes/pops at
the `Vec`'s end).  I/O is explicit: `input` is the list of bytes still to be
read, `output` the bytes printed so far.  `print!("{}", char::from(total))`
is modelled as emitting the byte value `total`; `read_char()` on exhausted
input and the `try_into::<u8>().unwrap()` on an oversized character are the
two panics of the Rust code and become distinguished errors. -/

/-- Interpreter-level failures.  `MissingFunction` models the
`program.get(id).unwrap()` panic inside `do_ast` and the `NoSuchFunction`
error of `interpret`; `OutOfFuel` models native stack exhaustion. -/
inductive RunError where
  | MissingFunction (p : Path)
  | NoInput
  | ByteTooLarge
  | OutOfFuel
deriving DecidableEq

/-- Interpreter state: the bit-stack (head = top) plus the I/O streams. -/
structure ISt where
  stack : List Bool
  input : List Nat
  output : List Nat
deriving DecidableEq

/-- `param.pop().unwrap_or(false)`. -/
def popBit : List Bool → Bool × List Bool
  | [] => (false, [])
  | b :: s => (b, s)

/-- The `Print` loop: pop `n` bits, most significant first, onto `total`. -/
def popByte : Nat → Nat → List Bool → Nat × List Bool
  | 0, total, s => (total, s)
  | n + 1, total, s =>
    match popBit s with
    | (b, s') => popByte n (total * 2 + if b then 1 else 0) s'

/-- The `Read` loop: push the `n` low bits of `code`, least significant
first. -/
def pushBits : Nat → Nat → List Bool → List Bool
  | 0, _, s => s
  | n + 1, code, s => pushBits n (code / 2) (decide (code % 2 = 1) :: s)

/-- `do_ast` from `src/interpreter.rs`, with fuel for the native call
stack: nested executions (split branches, bracket bodies, calls) burn one
unit, continuing with the rest of the current body does not. -/
def do_ast (program : Defs) : Nat → List AST → ISt → Except RunError ISt
  | 0, _, _ => .error .OutOfFuel
  | _ + 1, [], st => .ok st
  | fuel + 1, a :: rest, st =>
    match a with
    | AST.Left => do_ast program (fuel + 1) rest { st with stack := true :: st.stack }
    | AST.Right => do_ast program (fuel + 1) rest { st with stack := false :: st.stack }
    | AST.Split l r =>
      match do_ast program fuel (if (popBit st.stack).1 then l else r)
          { st with stack := (popBit st.stack).2 } with
      | .error e => .error e
      | .ok st' => do_ast program (fuel + 1) rest st'
    | AST.Bracketed f =>
      match do_ast program fuel f st with
      | .error e => .error e
      | .ok st' => do_ast program (fuel + 1) rest st'
    | AST.Id i =>
      match lookupP i program with
      | none => .error (.MissingFunction i)
      | some f =>
        match do_ast program fuel f st with
        | .error e => .error e
        | .ok st' => do_ast program (fuel + 1) rest st'
    | AST.Print =>
      match popByte 8 0 st.stack with
      | (total, s') =>
        do_ast program (fuel + 1) rest ⟨s', st.input, st.output ++ [total]⟩
    | AST.Read =>
      match st.input with
      | [] => .error .NoInput
      | c :: inp =>
        if c < 256 then
          do_ast program (fuel + 1) rest ⟨pushBits 8 c st.stack, inp, st.output⟩
        else .error .ByteTooLarge
termination_by fuel asts _ => (fuel, asts.length)

/-- `interpret` from `src/interpreter.rs`, projected to its output bytes. -/
def interpret (program : Defs) (entry : Path) (input : List Nat) (fuel : Nat) :
    Except RunError (List Nat) :=
  match lookupP entry program with
  | none => .error (.MissingFunction entry)
  | some f => (do_ast program fuel f ⟨[], input, []⟩).map (fun st => st.output)

/-! ### Semantics of the generated native code (`compiler.rs`)

The code generator lowers each AST body to straight-line calls over two
globals: a 1024-slot boolean array (zero-initialized) and an index cursor.
`decri` refuses to move below 0, `incri` refuses to reach 1024; both are
silent no-ops.  The model below is the operational semantics of exactly the
code `build_ast` and the helper builders emit, with `putchar`/`getchar`
modelled by the same explicit byte streams as the interpreter. -/

/-- Generated-code state: the fixed array as a function (zero-initialized to
`false`), the cursor, and the I/O streams. -/
structure CSt where
  mem : Nat → Bool
  cursor : Nat
  input : List Nat
  output : List Nat

/-- The `decri` helper: decrementing at 0 silently does nothing. -/
def decri (c : Nat) : Nat := if c = 0 then 0 else c - 1

/-- The `incri` helper: incrementing to `ARRAY_SIZE = 1024` silently does
nothing. -/
def incri (c : Nat) : Nat := if c + 1 ≥ 1024 then c else c + 1

/-- Pointwise array store. -/
def memSet (m : Nat → Bool) (i : Nat) (v : Bool) : Nat → Bool :=
  fun j => if j = i then v else m j

/-- The unrolled loop of the generated `print` helper: eight times decrement
then read the bit at the cursor, accumulating most-significant first.
Returns the byte and the final cursor. -/
def cPrintLoop : Nat → Nat → (Nat → Bool) → Nat → Nat × Nat
  | 0, acc, _, cur => (acc, cur)
  | n + 1, acc, mem, cur =>
    let cur' := decri cur
    cPrintLoop n (acc * 2 + if mem cur' then 1 else 0) mem cur'

/-- The unrolled loop of the generated `read` helper: eight times store the
low bit at the cursor, increment, and shift the byte right.  Returns the
updated array and cursor. -/
def cReadLoop : Nat → Nat → (Nat → Bool) → Nat → (Nat → Bool) × Nat
  | 0, _, mem, cur => (mem, cur)
  | n + 1, acc, mem, cur =>
    cReadLoop n (acc / 2) (memSet mem cur (decide (acc % 2 = 1))) (incri cur)

/-- Operational semantics of the code `build_ast` emits for one AST body:
`Left`/`Right` store at the cursor then `incri`; `Print`/`Read` call the
helpers; `Split` calls `decri`, loads the bit at the cursor and branches
(true to the left block, false to the right); `Bracketed` is lowered
inline; `Id` is a direct call to the callee's generated function. -/
def compiled_ast (program : Defs) : Nat → List AST → CSt → Except RunError CSt
  | 0, _, _ => .error .OutOfFuel
  | _ + 1, [], st => .ok st
  | fuel + 1, a :: rest, st =>
    match a with
    | AST.Left =>
      compiled_ast program (fuel + 1) rest
        { st with mem := memSet st.mem st.cursor true, cursor := incri st.cursor }
    | AST.Right =>
      compiled_ast program (fuel + 1) rest
        { st with mem := memSet st.mem st.cursor false, cursor := incri st.cursor }
    | AST.Split l r =>
      let cur := decri st.cursor
      match compiled_ast program fuel (if st.mem cur then l else r)
          { st with cursor := cur } with
      | .error e => .error e
      | .ok st' => compiled_ast program (fuel + 1) rest st'
    | AST.Bracketed f =>
      match compiled_ast program fuel f st with
      | .error e => .error e
      | .ok st' => compiled_ast program (fuel + 1) rest st'
    | AST.Id i =>
      match lookupP i program with
      | none => .error (.MissingFunction i)
      | some f =>
        match compiled_ast program fuel f st with
        | .error e => .error e
        | .ok st' => compiled_ast program (fuel + 1) rest st'
    | AST.Print =>
      match cPrintLoop 8 0 st.mem st.cursor with
      | (acc, cur) =>
        compiled_ast program (fuel + 1) rest
          { st with cursor := cur, output := st.output ++ [acc] }
    | AST.Read =>
      match st.input with
      | [] => .error .NoInput
      | c :: inp =>
        match cReadLoop 8 c st.mem st.cursor with
        | (mem, cur) =>
          compiled_ast program (fuel + 1) rest ⟨mem, cur, inp, st.output⟩
termination_by fuel asts _ => (fuel, asts.length)

/-- Running the compiled program: the generated `main` wrapper calls the
entry path's generated function on the zero-initialized globals.  Projected
to the emitted bytes. -/
def run_compiled (program : Defs) (entry : Path) (input : List Nat) (fuel : Nat) :
    Except RunError (List Nat) :=
  match lookupP entry program with
  | none => .error (.MissingFunction entry)
  | some f =>
    (compiled_ast program fuel f ⟨fun _ => false, 0, input, []⟩).map
      (fun st => st.output)

/-! ### The per-file scan loop of `scan_dir` (`parser.rs` lines 243-296)

The directory walking itself is filesystem glue; the loop over one file's
tokens, which builds the raw-function table and the import sets, is modelled
verbatim. -/

/-- The mutable state of the scan loop, bundling the tables that `scan_dir`
threads by `&mut` with the per-file flags and accumulators. -/
structure ScanSt where
  functions : Fns
  imports : Imports
  importedPackages : List Path
  defining : Bool
  importing : Bool
  currentFunc : List Token
  currentFuncName : String

/-- Initial scan state for a fresh run (all per-file flags cleared). -/
def scanInit : ScanSt := ⟨[], [], [], false, false, [], ""⟩

/-- `HashSet`-style insertion of a path into a list. -/
def insertPath (p : Path) (l : List Path) : List Path :=
  if p ∈ l then l else l ++ [p]

/-- Record that `fileName` imports package `i`. -/
def addImport (fileName i : Path) (imps : Imports) : Imports :=
  match lookupP fileName imps with
  | none => imps ++ [(fileName, [i])]
  | some l => (removeP fileName imps) ++ [(fileName, insertPath i l)]

/-- The token loop of `scan_dir` for one file, `fileName` being the file's
package path.  On end of input a still-open definition is flushed exactly
as the trailing `if defining` block does. -/
def scanTokens (fileName : Path) : List Token → ScanSt → Except ParseError ScanSt
  | [], st =>
    if st.defining then
      let f_n := fileName ++ [st.currentFuncName]
      if containsP f_n st.functions then
        .error (.FunctionDefinedTwice (String.intercalate "." f_n))
      else
        .ok { st with functions := st.functions ++ [(f_n, st.currentFunc)] }
    else .ok st
  | t :: ts, st =>
    if st.importing then
      match t with
      | Token.Id i =>
        scanTokens fileName ts
          { st with importing := false,
                    imports := addImport fileName i st.imports,
                    importedPackages := insertPath i st.importedPackages }
      | _ => .error .ExpectedPackageName
    else if st.defining then
      match t with
      | Token.Semicolon =>
        let f_n := fileName ++ [st.currentFuncName]
        if containsP f_n st.functions then
          .error (.FunctionDefinedTwice (String.intercalate "." f_n))
        else
          scanTokens fileName ts
            { st with functions := st.functions ++ [(f_n, st.currentFunc)],
                      currentFunc := [], currentFuncName := "", defining := false }
      | _ => scanTokens fileName ts { st with currentFunc := st.currentFunc ++ [t] }
    else
      match t with
      | Token.Bang => scanTokens fileName ts { st with importing := true }
      | Token.Id i =>
        if i.length ≠ 1 then .error (.CannotDefineFunctionOutsidePackage i)
        else
          scanTokens fileName ts
            { st with currentFuncName := i.headD "", defining := true }
      | _ => scanTokens fileName ts st

/-! ## Interpreter lemmas -/

theorem do_ast_nil (program : Defs) (fuel : Nat) (st : ISt) :
    do_ast program (fuel + 1) [] st = .ok st := by
  simp [do_ast]

/-- Splitting a `popByte` run: popping `m + n` bits is popping `m`, then
popping `n` from where that left off. -/
theorem popByte_add (m n t : Nat) (l : List Bool) :
    popByte (m + n) t l = popByte n (popByte m t l).1 (popByte m t l).2 := by
  induction m generalizing t l with
  | zero => simp [popByte]
  | succ m ih =>
    rw [Nat.succ_add]
    cases l with
    | nil =>
      show popByte (m + n) (t * 2 + 0) [] = _
      rw [ih]
      rfl
    | cons b s =>
      show popByte (m + n) (t * 2 + if b then 1 else 0) s = _
      rw [ih]
      rfl

/-- Popping back the bits just pushed reconstructs the byte: `pushBits`
pushes least-significant first, `popByte` accumulates most-significant
first. -/
theorem popByte_pushBits (n c t : Nat) (s : List Bool) :
    popByte n t (pushBits n c s) = (t * 2 ^ n + c % 2 ^ n, s) := by
  induction n generalizing c t s with
  | zero => simp [popByte, pushBits, Nat.mod_one]
  | succ n ih =>
    show popByte (n + 1) t (pushBits n (c / 2) (decide (c % 2 = 1) :: s)) = _
    rw [popByte_add n 1, ih]
    show (_ * 2 + if decide (c % 2 = 1) then 1 else 0, s) = _
    have hbit : (if decide (c % 2 = 1) then 1 else 0) = c % 2 := by
      rcases Nat.mod_two_eq_zero_or_one c with h | h <;> simp [h]
    have hmod : c % 2 ^ (n + 1) = c % 2 + 2 * (c / 2 % 2 ^ n) := by
      rw [pow_succ, mul_comm (2 ^ n) 2, Nat.mod_mul]
    rw [hbit, hmod, pow_succ]
    ring_nf

/-- C2. For every input byte value 0 through 255, interpreting the body
`[Read, Print]` from any stack emits exactly that byte and leaves the
stack as it was: `Read` pushes the 8 bits least-significant first, `Print`
pops 8 bits accumulating most-significant first, so the composition is the
identity on the byte. -/
theorem read_print_roundtrip (program : Defs) (fuel b : Nat) (hb : b < 256)
    (s : List Bool) (inp out : List Nat) :
    do_ast program (fuel + 1) [AST.Read, AST.Print] ⟨s, b :: inp, out⟩
      = .ok ⟨s, inp, out ++ [b]⟩ := by
  have h1 : do_ast program (fuel + 1) [AST.Read, AST.Print] ⟨s, b :: inp, out⟩
      = do_ast program (fuel + 1) [AST.Print] ⟨pushBits 8 b s, inp, out⟩ := by
    simp [do_ast, hb]
  have h2 : popByte 8 0 (pushBits 8 b s) = (b, s) := by
    have h := popByte_pushBits 8 b 0 s
    rwa [show (2 : Nat) ^ 8 = 256 from rfl, Nat.mod_eq_of_lt hb, Nat.zero_mul,
      Nat.zero_add] at h
  rw [h1]
  simp [do_ast, h2]

/-- Witness for `read_print_roundtrip` at byte 65 on a nonempty stack. -/
theorem read_print_roundtrip_witness :
    65 < 256
    ∧ do_ast [] 1 [AST.Read, AST.Print] ⟨[true], [65], []⟩
        = .ok ⟨[true], [], [65]⟩ :=
  ⟨by decide, read_print_roundtrip [] 0 65 (by decide) [true] [] []⟩

/-- C5. Interpreting a `Split(l, r)` node pops exactly one value — `popBit`
yields `false` on the empty stack — and then executes `l` if the popped
value was `true` and `r` if it was `false`. -/
theorem split_pops_one_value (program : Defs) (fuel : Nat) (l r : List AST)
    (s : List Bool) (inp out : List Nat) :
    do_ast program (fuel + 1) [AST.Split l r] ⟨s, inp, out⟩
        = do_ast program fuel (if (popBit s).1 then l else r) ⟨(popBit s).2, inp, out⟩
      ∧ popBit [] = (false, [])
      ∧ ∀ b t, popBit (b :: t) = (b, t) := by
  refine ⟨?_, rfl, fun b t => rfl⟩
  have hstep : do_ast program (fuel + 1) [AST.Split l r] ⟨s, inp, out⟩
      = match do_ast program fuel (if (popBit s).1 then l else r)
            ⟨(popBit s).2, inp, out⟩ with
        | .error e => .error e
        | .ok st' => do_ast program (fuel + 1) [] st' := by
    simp [do_ast]
  rw [hstep]
  cases h : do_ast program fuel (if (popBit s).1 then l else r) ⟨(popBit s).2, inp, out⟩ with
  | error e => rfl
  | ok st' => simp [do_ast]

/-! ## C1: the two backends diverge

The source `_ #(:)!;` in package `main` resolves to the single-function
table `{main._ ↦ [Left, Bracketed [Split [] []], Print]}`.  On empty input
the interpreter pushes `true`, pops it at the split, and then `Print` pops
eight missing values — all defaulting to `false` — emitting byte 0.  The
generated code stores `true` at slot 0, moves the cursor back to 0 at the
split, and then each of `Print`'s eight decrements is a silent no-op at
cursor 0, so all eight reads see the stale `true` in slot 0: it emits byte
255. -/

/-- C1 (refutation by evaluation).  A resolved program table — produced by
the resolver itself from the raw token body — an entry path and an input on
which the tree-walking interpreter outputs `[0]` while the program generated
by the code generator outputs `[255]`. -/
theorem backend_divergence_on_stale_slot :
    parse_funcs 2 ["main", "_"] []
        [(["main", "_"],
          [Token.Hash, Token.LBracket, Token.Colon, Token.RBracket, Token.Bang])] []
      = .ok ([(["main", "_"],
          [AST.Left, AST.Bracketed [AST.Split [] []], AST.Print])], [])
    ∧ interpret [(["main", "_"], [AST.Left, AST.Bracketed [AST.Split [] []], AST.Print])]
        ["main", "_"] [] 5 = .ok [0]
    ∧ run_compiled [(["main", "_"], [AST.Left, AST.Bracketed [AST.Split [] []], AST.Print])]
        ["main", "_"] [] 5 = .ok [255] := by
  refine ⟨?_, ?_, ?_⟩
  · simp [parse_funcs, parse_funcs_list, resolveBody, lookupP, removeP,
      parse_brackets, pbGo, closeAll, parse_colon, pcGo, parse_functions, buildRev]
  · simp [interpret, lookupP, do_ast, popBit, popByte, Except.map]
  · simp [run_compiled, lookupP, compiled_ast, decri, incri, memSet, cPrintLoop,
      Except.map]

/-- C7 (refutation by evaluation).  In a project whose single file contains
no import directive, a function body with an unresolvable reference makes
`parse_funcs` hit `imports.get(&dirn).unwrap()` on `None` — a panic, modelled
as `PanicNoImports` — instead of returning `UnknownFunction`. -/
theorem unresolved_reference_panics_without_imports :
    parse_funcs 2 ["main", "_"] [] [(["main", "_"], [Token.Id ["g"]])] []
      = .error .PanicNoImports := by
  simp [parse_funcs, resolveBody, resolveId, matchB, containsP, lookupP, removeP,
    scanPrefixes, prefixesOf, List.range, List.range.loop]

/-- C3 (counterexample).  A project defining `main._` (empty body) and
`main.g`: resolution driven from the entry `main._` succeeds but its output
table has no entry for the defined function `main.g`, whose raw body is left
behind unresolved. -/
theorem resolver_output_misses_unreachable_function :
    parse_funcs 3 ["main", "_"] [] [(["main", "_"], []), (["main", "g"], [])] []
      = .ok ([(["main", "_"], [])], [(["main", "g"], [])])
    ∧ lookupP ["main", "g"] [(["main", "_"], ([] : List AST))] = none
    ∧ containsP ["main", "g"]
        [(["main", "_"], ([] : List Token)), (["main", "g"], [])] = true := by
  refine ⟨?_, rfl, rfl⟩
  simp [parse_funcs, parse_funcs_list, resolveBody, lookupP, removeP,
    parse_brackets, pbGo, closeAll, parse_colon, pcGo, parse_functions, buildRev]

/-! ## C9 and C10: the scan loop -/

/-- C9 (counterexample).  A file whose last token is an import-mark: the
scan loop ends with `importing` still set and the trailing end-of-file code
never checks it, so scanning succeeds instead of failing with
`ExpectedPackageName`. -/
theorem import_mark_at_eof_is_silently_dropped :
    scanTokens ["main"] [Token.Bang] scanInit
      = .ok { scanInit with importing := true } := by
  simp [scanTokens, scanInit]

/-- C9 (amended).  From a top-level scan state (no definition open, no
pending import), an import-mark followed by a non-`Id` token fails with
`ExpectedPackageName`; an import-mark as the last token of the file is
silently ignored — the scan succeeds and no import is recorded. -/
theorem import_mark_followup_required (fileName : Path) (ts : List Token)
    (st : ScanSt) (t : Token) (h1 : st.importing = false) (h2 : st.defining = false)
    (h3 : isIdTok t = false) :
    scanTokens fileName (Token.Bang :: t :: ts) st = .error .ExpectedPackageName
    ∧ scanTokens fileName [Token.Bang] st = .ok { st with importing := true } := by
  constructor
  · cases t <;> simp_all [scanTokens, isIdTok]
  · simp [scanTokens, h1, h2]

/-- Witness for `import_mark_followup_required` on the initial state with a
colon after the import-mark. -/
theorem import_mark_followup_required_witness :
    scanTokens ["main"] [Token.Bang, Token.Colon] scanInit = .error .ExpectedPackageName
    ∧ scanTokens ["main"] [Token.Bang] scanInit = .ok { scanInit with importing := true } :=
  import_mark_followup_required ["main"] [] scanInit Token.Colon rfl rfl rfl

/-- Helper for C10: while a definition is open, every token up to end of
input accumulates into the body, and the end-of-file flush records the
function — still subject to the `FunctionDefinedTwice` check. -/
theorem scanTokens_defining_flush (fileName : Path) (body : List Token) (st : ScanSt)
    (h0 : st.importing = false) (h1 : st.defining = true)
    (hsem : body.all (fun t => !isSemicolonTok t) = true) :
    scanTokens fileName body st =
      if containsP (fileName ++ [st.currentFuncName]) st.functions then
        .error (.FunctionDefinedTwice
          (String.intercalate "." (fileName ++ [st.currentFuncName])))
      else
        .ok { st with
              functions :=
                st.functions ++ [(fileName ++ [st.currentFuncName], st.currentFunc ++ body)],
              currentFunc := st.currentFunc ++ body } := by
  induction body generalizing st with
  | nil =>
    simp [scanTokens, h1]
  | cons t rest ih =>
    simp only [List.all_cons, Bool.and_eq_true] at hsem
    have step : scanTokens fileName (t :: rest) st
        = scanTokens fileName rest { st with currentFunc := st.currentFunc ++ [t] } := by
      cases t <;> simp_all [scanTokens, isSemicolonTok]
    rw [step, ih { st with currentFunc := st.currentFunc ++ [t] } h0 h1 hsem.2]
    simp [List.append_assoc]

/-- C10.  Reaching end of file with a definition still open (name seen, no
terminator) records the function under its file-derived qualified path with
every token accumulated since its name as its body, and the
`FunctionDefinedTwice` check is still applied. -/
theorem eof_open_definition_recorded (fileName : Path) (name : String)
    (body : List Token) (st : ScanSt)
    (h0 : st.importing = false) (h1 : st.defining = false) (h2 : st.currentFunc = [])
    (hsem : body.all (fun t => !isSemicolonTok t) = true) :
    scanTokens fileName (Token.Id [name] :: body) st =
      if containsP (fileName ++ [name]) st.functions then
        .error (.FunctionDefinedTwice (String.intercalate "." (fileName ++ [name])))
      else
        .ok { st with
              functions := st.functions ++ [(fileName ++ [name], body)],
              defining := true, currentFuncName := name, currentFunc := body } := by
  have step : scanTokens fileName (Token.Id [name] :: body) st
      = scanTokens fileName body
          { st with currentFuncName := name, defining := true } := by
    simp [scanTokens, h0, h1]
  rw [step, scanTokens_defining_flush fileName body
    { st with currentFuncName := name, defining := true } h0 rfl hsem]
  simp [h2]

/-- Witness for `eof_open_definition_recorded`: the file `["main"]` whose
token stream is `f !` (no terminator) records `main.f` with body `[!]`. -/
theorem eof_open_definition_recorded_witness :
    scanTokens ["main"] [Token.Id ["f"], Token.Bang] scanInit
      = .ok { scanInit with
              functions := [(["main", "f"], [Token.Bang])],
              defining := true, currentFuncName := "f",
              currentFunc := [Token.Bang] } := by
  have h := eof_open_definition_recorded ["main"] "f" [Token.Bang] scanInit rfl rfl rfl
    (by rfl)
  simpa [containsP, lookupP, scanInit] using h

/-! ## C6: the AST builder reverses source order -/

/-- Once the accumulator is nonempty it stays nonempty, and every further
token simply appends its node: the run is `acc ++ filterMap nodeOf`. -/
theorem buildRev_acc_ne (rts : List Token) :
    ∀ acc : List AST, acc ≠ [] → buildRev rts acc = acc ++ rts.filterMap nodeOf := by
  induction rts with
  | nil => intro acc _; simp [buildRev]
  | cons t ts ih =>
    intro acc hacc
    have hie : acc.isEmpty = false := by simpa using hacc
    have hne : ∀ x : AST, acc ++ [x] ≠ [] := by simp
    cases t with
    | Bracket g =>
      rw [buildRev, if_neg (by simp [hie]), ih _ (hne _)]
      simp [nodeOf, parse_functions]
    | Split l r => rw [buildRev, ih _ (hne _)]; simp [nodeOf, parse_functions]
    | Bang => rw [buildRev, ih _ (hne _)]; simp [nodeOf]
    | Question => rw [buildRev, ih _ (hne _)]; simp [nodeOf]
    | At => rw [buildRev, ih _ (hne _)]; simp [nodeOf]
    | Hash => rw [buildRev, ih _ (hne _)]; simp [nodeOf]
    | Id i => rw [buildRev, ih _ (hne _)]; simp [nodeOf]
    | Colon =>
      rw [show buildRev (Token.Colon :: ts) acc = buildRev ts acc from by simp [buildRev],
        ih _ hacc]
      simp [nodeOf]
    | Semicolon =>
      rw [show buildRev (Token.Semicolon :: ts) acc = buildRev ts acc from by
          simp [buildRev],
        ih _ hacc]
      simp [nodeOf]
    | LBracket =>
      rw [show buildRev (Token.LBracket :: ts) acc = buildRev ts acc from by
          simp [buildRev],
        ih _ hacc]
      simp [nodeOf]
    | RBracket =>
      rw [show buildRev (Token.RBracket :: ts) acc = buildRev ts acc from by
          simp [buildRev],
        ih _ hacc]
      simp [nodeOf]

/-- C6.  The AST builder emits the function body in the reverse of the
tokens' source lexical order — recursively, `nodeOf` carrying the recursion
into `Split` branches and bracket groups, each bracket group becoming a
`Bracketed` node — except that a bracket group reached while the accumulator
is still empty has its built body become the accumulator with no `Bracketed`
wrapper: a trailing group whose body is nonempty is inlined in front of the
reversed rest. -/
theorem builder_reverses_source_order :
    (∀ ts : List Token, ts.all goodTok = true →
        ts.getLast?.all (fun t => !isBracketTok t) = true →
        parse_functions ts = (ts.filterMap nodeOf).reverse)
    ∧ (∀ ts g : List Token, (parse_functions g).isEmpty = false →
        parse_functions (ts ++ [Token.Bracket g])
          = parse_functions g ++ (ts.filterMap nodeOf).reverse) := by
  constructor
  · intro ts hgood hlast
    match hrev : ts.reverse with
    | [] =>
      have : ts = [] := by simpa using congrArg List.reverse hrev
      subst this
      simp [parse_functions, buildRev]
    | t :: rts =>
      have hts : ts = rts.reverse ++ [t] := by
        have := congrArg List.reverse hrev
        simpa using this
      have htm : t ∈ ts := by rw [hts]; simp
      have hgt : goodTok t = true := by
        rw [List.all_eq_true] at hgood; exact hgood t htm
      have hnb : isBracketTok t = false := by
        rw [hts] at hlast
        simpa [List.getLast?_concat] using hlast
      have h1 : parse_functions ts = buildRev (t :: rts) [] := by
        rw [parse_functions, hrev]
      cases t with
      | Colon => simp [goodTok] at hgt
      | Semicolon => simp [goodTok] at hgt
      | LBracket => simp [goodTok] at hgt
      | RBracket => simp [goodTok] at hgt
      | Bracket g => simp [isBracketTok] at hnb
      | Bang =>
        rw [h1, show buildRev (Token.Bang :: rts) [] = buildRev rts [AST.Left]
            from by simp [buildRev],
          buildRev_acc_ne rts [AST.Left] (by simp), hts]
        simp [List.filterMap_append, List.filterMap_reverse, nodeOf]
      | Question =>
        rw [h1, show buildRev (Token.Question :: rts) [] = buildRev rts [AST.Right]
            from by simp [buildRev],
          buildRev_acc_ne rts [AST.Right] (by simp), hts]
        simp [List.filterMap_append, List.filterMap_reverse, nodeOf]
      | At =>
        rw [h1, show buildRev (Token.At :: rts) [] = buildRev rts [AST.Read]
            from by simp [buildRev],
          buildRev_acc_ne rts [AST.Read] (by simp), hts]
        simp [List.filterMap_append, List.filterMap_reverse, nodeOf]
      | Hash =>
        rw [h1, show buildRev (Token.Hash :: rts) [] = buildRev rts [AST.Print]
            from by simp [buildRev],
          buildRev_acc_ne rts [AST.Print] (by simp), hts]
        simp [List.filterMap_append, List.filterMap_reverse, nodeOf]
      | Id i =>
        rw [h1, show buildRev (Token.Id i :: rts) [] = buildRev rts [AST.Id i]
            from by simp [buildRev],
          buildRev_acc_ne rts [AST.Id i] (by simp), hts]
        simp [List.filterMap_append, List.filterMap_reverse, nodeOf]
      | Split l r =>
        rw [h1, show buildRev (Token.Split l r :: rts) []
              = buildRev rts [AST.Split (buildRev l.reverse []) (buildRev r.reverse [])]
            from by simp [buildRev],
          buildRev_acc_ne rts _ (by simp), hts]
        simp [List.filterMap_append, List.filterMap_reverse, nodeOf, parse_functions]
  · intro ts g hg
    have hne : buildRev g.reverse [] ≠ [] := by
      simpa [parse_functions, List.isEmpty_eq_false] using hg
    show buildRev (ts ++ [Token.Bracket g]).reverse [] = _
    rw [List.reverse_append]
    show buildRev (Token.Bracket g :: ts.reverse) [] = _
    rw [buildRev, if_pos (by simp), buildRev_acc_ne _ _ hne, List.filterMap_reverse]
    rfl

/-- Witness for `builder_reverses_source_order`: the body `! #` builds to
`[Print, Left]`, and `? ( # )` inlines the trailing group's body. -/
theorem builder_reverses_source_order_witness :
    parse_functions [Token.Bang, Token.Hash]
        = ([Token.Bang, Token.Hash].filterMap nodeOf).reverse
    ∧ parse_functions ([Token.Question] ++ [Token.Bracket [Token.Hash]])
        = parse_functions [Token.Hash] ++ ([Token.Question].filterMap nodeOf).reverse :=
  ⟨builder_reverses_source_order.1 [Token.Bang, Token.Hash] (by rfl) (by rfl),
   builder_reverses_source_order.2 [Token.Question] [Token.Hash]
     (by simp [parse_functions, buildRev])⟩

/-! ## C8: the colon pass -/

/-- Top-level colon count of a token sequence. -/
def countColon : List Token → Nat
  | [] => 0
  | Token.Colon :: ts => countColon ts + 1
  | _ :: ts => countColon ts

/-- The claim's "returned unchanged apart from unconditional recursion into
nested bracket groups": rebuild the sequence, running `parse_colon` inside
every bracket group. -/
def recurseBrackets : List Token → Except ParseError (List Token)
  | [] => .ok []
  | Token.Bracket g :: ts =>
    match parse_colon g with
    | .error e => .error e
    | .ok g' =>
      match recurseBrackets ts with
      | .error e => .error e
      | .ok ts' => .ok (Token.Bracket g' :: ts')
  | t :: ts =>
    match recurseBrackets ts with
    | .error e => .error e
    | .ok ts' => .ok (t :: ts')

/-- The only error the colon pass ever produces is
`UnknownAssociativity`. -/
theorem pcGo_error_UA (ts left right : List Token) (sp : Bool) :
    ∀ e, pcGo ts left right sp = .error e → e = .UnknownAssociativity := by
  induction ts, left, right, sp using pcGo.induct <;> intro e h <;>
    simp_all [pcGo]

/-- `recurseBrackets` fails only with `UnknownAssociativity`. -/
theorem recurseBrackets_error_UA (ts : List Token) :
    ∀ e, recurseBrackets ts = .error e → e = .UnknownAssociativity := by
  induction ts using recurseBrackets.induct with
  | case1 => intro e h; simp [recurseBrackets] at h
  | case2 g ts e' hg =>
    intro e h
    simp only [recurseBrackets, hg] at h
    cases h
    exact pcGo_error_UA g [] [] false e' hg
  | case3 g ts g' hg e' hr ih =>
    intro e h
    simp only [recurseBrackets, hg, hr] at h
    cases h
    exact ih e' hr
  | case4 g ts g' hg ts' hr ih =>
    intro e h
    simp only [recurseBrackets, hg, hr] at h
    cases h
  | case5 t ts hnb e' hr ih =>
    intro e h
    rw [show recurseBrackets (t :: ts)
        = match recurseBrackets ts with
          | .error e => .error e
          | .ok ts' => .ok (t :: ts') from by
      cases t <;> simp_all [recurseBrackets]] at h
    rw [hr] at h
    cases h
    exact ih e' hr
  | case6 t ts hnb ts' hr ih =>
    intro e h
    rw [show recurseBrackets (t :: ts)
        = match recurseBrackets ts with
          | .error e => .error e
          | .ok ts' => .ok (t :: ts') from by
      cases t <;> simp_all [recurseBrackets]] at h
    rw [hr] at h
    cases h

/-- Stepping `recurseBrackets` over a non-bracket token. -/
theorem recurseBrackets_cons_other (t : Token) (ts : List Token)
    (hnb : ∀ g, t = Token.Bracket g → False) :
    recurseBrackets (t :: ts)
      = match recurseBrackets ts with
        | .error e => .error e
        | .ok ts' => .ok (t :: ts') := by
  cases t <;> simp_all [recurseBrackets]

/-- `countColon` ignores non-colon tokens. -/
theorem countColon_cons_other (t : Token) (ts : List Token)
    (hnc : t ≠ Token.Colon) : countColon (t :: ts) = countColon ts := by
  cases t <;> simp_all [countColon]

/-- Stepping the colon pass over a bracket group in left-accumulating
mode. -/
theorem pcGo_cons_bracket_false (g ts left right : List Token) :
    pcGo (Token.Bracket g :: ts) left right false
      = match pcGo g [] [] false with
        | .error e => .error e
        | .ok g' => pcGo ts (left ++ [Token.Bracket g']) right false := by
  simp only [pcGo]
  cases pcGo g [] [] false <;> simp

/-- Stepping the colon pass over a bracket group in right-accumulating
mode. -/
theorem pcGo_cons_bracket_true (g ts left right : List Token) :
    pcGo (Token.Bracket g :: ts) left right true
      = match pcGo g [] [] false with
        | .error e => .error e
        | .ok g' => pcGo ts left (right ++ [Token.Bracket g']) true := by
  simp only [pcGo]
  cases pcGo g [] [] false <;> simp

/-- Stepping the colon pass over an ordinary token, left of any colon. -/
theorem pcGo_cons_other_false (t : Token) (ts left right : List Token)
    (hnc : t ≠ Token.Colon) (hnb : ∀ g, t = Token.Bracket g → False) :
    pcGo (t :: ts) left right false = pcGo ts (left ++ [t]) right false := by
  cases t <;> simp_all [pcGo]

/-- Stepping the colon pass over an ordinary token, right of the colon. -/
theorem pcGo_cons_other_true (t : Token) (ts left right : List Token)
    (hnc : t ≠ Token.Colon) (hnb : ∀ g, t = Token.Bracket g → False) :
    pcGo (t :: ts) left right true = pcGo ts left (right ++ [t]) true := by
  cases t <;> simp_all [pcGo]

/-- A colon-free sequence is rebuilt unchanged (modulo bracket recursion)
onto the left accumulator. -/
theorem pcGo_no_colon (ts : List Token) :
    ∀ left right, countColon ts = 0 → pcGo ts left right false =
      match recurseBrackets ts with
      | .error e => .error e
      | .ok ts' => .ok (left ++ ts') := by
  induction ts with
  | nil => intro l r _; simp [pcGo, recurseBrackets]
  | cons t ts ih =>
    intro l r h
    cases t
    case Colon => simp [countColon] at h
    case Bracket g =>
      rw [pcGo_cons_bracket_false]
      cases hg : pcGo g [] [] false with
      | error e => simp [recurseBrackets, parse_colon, hg]
      | ok g' =>
        dsimp only
        rw [ih (l ++ [Token.Bracket g']) r (by simpa [countColon] using h)]
        simp only [recurseBrackets, parse_colon, hg]
        cases recurseBrackets ts <;> simp
    all_goals
      rw [pcGo_cons_other_false _ _ _ _ (by simp) (by simp),
        ih _ r (by rwa [countColon_cons_other _ _ (by simp)] at h),
        recurseBrackets_cons_other _ _ (by simp)]
    all_goals cases recurseBrackets ts <;> simp

/-- After the colon: a colon-free tail closes into one `Split`, any further
colon at this level is fatal. -/
theorem pcGo_split_mode (ts : List Token) :
    ∀ left right,
      (countColon ts = 0 → pcGo ts left right true =
        match recurseBrackets ts with
        | .error e => .error e
        | .ok ts' => .ok [Token.Split left (right ++ ts')])
      ∧ (1 ≤ countColon ts → pcGo ts left right true = .error .UnknownAssociativity) := by
  induction ts with
  | nil =>
    intro l r
    constructor
    · intro _; simp [pcGo, recurseBrackets]
    · intro h; simp [countColon] at h
  | cons t ts ih =>
    intro l r
    cases t
    case Colon =>
      constructor
      · intro h; simp [countColon] at h
      · intro _; simp [pcGo]
    case Bracket g =>
      rw [pcGo_cons_bracket_true]
      constructor
      · intro h
        cases hg : pcGo g [] [] false with
        | error e => simp [recurseBrackets, parse_colon, hg]
        | ok g' =>
          dsimp only
          rw [(ih l (r ++ [Token.Bracket g'])).1 (by simpa [countColon] using h)]
          simp only [recurseBrackets, parse_colon, hg]
          cases recurseBrackets ts <;> simp
      · intro h
        cases hg : pcGo g [] [] false with
        | error e =>
          have hua := pcGo_error_UA g [] [] false e hg
          subst hua
          simp
        | ok g' =>
          dsimp only
          exact (ih l (r ++ [Token.Bracket g'])).2
            (by rwa [countColon_cons_other _ _ (by simp)] at h)
    all_goals
      rw [pcGo_cons_other_true _ _ _ _ (by simp) (by simp)]
    all_goals
      refine ⟨fun h => ?_, fun h => (ih l _).2
        (by rwa [countColon_cons_other _ _ (by simp)] at h)⟩
    all_goals
      rw [(ih l _).1 (by rwa [countColon_cons_other _ _ (by simp)] at h),
        recurseBrackets_cons_other _ _ (by simp)]
    all_goals cases recurseBrackets ts <;> simp

/-- Processing a colon-free prefix, then the first colon, hands the rebuilt
prefix to split mode. -/
theorem pcGo_to_split (a : List Token) :
    ∀ b left right, countColon a = 0 →
      pcGo (a ++ Token.Colon :: b) left right false =
        match recurseBrackets a with
        | .error e => .error e
        | .ok a' => pcGo b (left ++ a') right true := by
  induction a with
  | nil =>
    intro b l r _
    simp [pcGo, recurseBrackets]
  | cons t a ih =>
    intro b l r h
    cases t
    case Colon => simp [countColon] at h
    case Bracket g =>
      rw [List.cons_append, pcGo_cons_bracket_false]
      cases hg : pcGo g [] [] false with
      | error e => simp [recurseBrackets, parse_colon, hg]
      | ok g' =>
        dsimp only
        rw [ih b (l ++ [Token.Bracket g']) r (by simpa [countColon] using h)]
        simp only [recurseBrackets, parse_colon, hg]
        cases recurseBrackets a <;> simp
    all_goals
      rw [List.cons_append, pcGo_cons_other_false _ _ _ _ (by simp) (by simp),
        ih b _ r (by rwa [countColon_cons_other _ _ (by simp)] at h),
        recurseBrackets_cons_other _ _ (by simp)]
    all_goals cases recurseBrackets a <;> simp

/-- Any sequence with at least one top-level colon splits at the first
one. -/
theorem countColon_split (ts : List Token) :
    1 ≤ countColon ts →
      ∃ a b, ts = a ++ Token.Colon :: b ∧ countColon a = 0
        ∧ countColon ts = countColon b + 1 := by
  induction ts with
  | nil => intro h; simp [countColon] at h
  | cons t ts ih =>
    intro h
    rcases Classical.em (t = Token.Colon) with hc | hc
    · subst hc; exact ⟨[], ts, rfl, rfl, by simp [countColon]⟩
    · rw [countColon_cons_other t ts hc] at h
      obtain ⟨a, b, hab, ha, hcount⟩ := ih h
      refine ⟨t :: a, b, ?_, ?_, ?_⟩
      · rw [hab, List.cons_append]
      · rw [countColon_cons_other t a hc]; exact ha
      · rw [countColon_cons_other t ts hc]; exact hcount

/-- C8.  At one nesting level of the colon pass: no top-level colon leaves
the sequence unchanged apart from the unconditional recursion into nested
bracket groups; exactly one top-level colon yields the single
`Split(left, right)` node whose branches are the sub-sequences before and
after it; two or more top-level colons are a fatal
`UnknownAssociativity`. -/
theorem colon_pass_characterization :
    (∀ ts, countColon ts = 0 → parse_colon ts = recurseBrackets ts)
    ∧ (∀ a b, countColon a = 0 → countColon b = 0 →
        parse_colon (a ++ Token.Colon :: b) =
          match recurseBrackets a, recurseBrackets b with
          | .error e, _ => .error e
          | .ok _, .error e => .error e
          | .ok a', .ok b' => .ok [Token.Split a' b'])
    ∧ (∀ ts, 2 ≤ countColon ts → parse_colon ts = .error .UnknownAssociativity) := by
  refine ⟨fun ts h => ?_, fun a b ha hb => ?_, fun ts h => ?_⟩
  · rw [parse_colon, pcGo_no_colon ts [] [] h]
    cases recurseBrackets ts <;> simp
  · rw [parse_colon, pcGo_to_split a b [] [] ha]
    cases hra : recurseBrackets a with
    | error e => simp
    | ok a' =>
      dsimp only
      rw [(pcGo_split_mode b ([] ++ a') []).1 hb]
      cases recurseBrackets b <;> simp
  · obtain ⟨a, b, hab, ha, hc⟩ := countColon_split ts (by omega)
    subst hab
    rw [parse_colon, pcGo_to_split a b [] [] ha]
    cases hra : recurseBrackets a with
    | error e =>
      have := recurseBrackets_error_UA a e hra
      subst this
      rfl
    | ok a' =>
      dsimp only
      exact (pcGo_split_mode b ([] ++ a') []).2 (by omega)

/-- Witness for `colon_pass_characterization` on `!`, `! : #` and `: :`. -/
theorem colon_pass_characterization_witness :
    parse_colon [Token.Bang] = recurseBrackets [Token.Bang]
    ∧ parse_colon ([Token.Bang] ++ Token.Colon :: [Token.Hash]) =
        (match recurseBrackets [Token.Bang], recurseBrackets [Token.Hash] with
          | .error e, _ => .error e
          | .ok _, .error e => .error e
          | .ok a', .ok b' => .ok [Token.Split a' b'])
    ∧ parse_colon [Token.Colon, Token.Colon] = .error .UnknownAssociativity :=
  ⟨colon_pass_characterization.1 [Token.Bang] rfl,
   colon_pass_characterization.2.1 [Token.Bang] [Token.Hash] rfl rfl,
   colon_pass_characterization.2.2 [Token.Colon, Token.Colon] (by decide)⟩

/-! ## C4: resolved tables are closed under their own `Id` references

Association-list bookkeeping first. -/

theorem lookupP_append_some {α : Type} (p : Path) (l1 l2 : List (Path × α)) (b : α)
    (h : lookupP p l1 = some b) : lookupP p (l1 ++ l2) = some b := by
  induction l1 with
  | nil => simp [lookupP] at h
  | cons e l ih =>
    obtain ⟨q, v⟩ := e
    rcases Classical.em (q = p) with hqp | hqp
    · simpa [lookupP, hqp] using h
    · rw [lookupP, if_neg hqp] at h
      rw [List.cons_append, lookupP, if_neg hqp]
      exact ih h

theorem lookupP_append_none {α : Type} (p : Path) (l1 l2 : List (Path × α))
    (h : lookupP p l1 = none) : lookupP p (l1 ++ l2) = lookupP p l2 := by
  induction l1 with
  | nil => simp
  | cons e l ih =>
    obtain ⟨q, v⟩ := e
    rcases Classical.em (q = p) with hqp | hqp
    · simp [lookupP, hqp] at h
    · rw [lookupP, if_neg hqp] at h
      rw [List.cons_append, lookupP, if_neg hqp]
      exact ih h

theorem lookupP_append_cases {α : Type} (p : Path) (l1 l2 : List (Path × α)) (b : α)
    (h : lookupP p (l1 ++ l2) = some b) :
    lookupP p l1 = some b ∨ (lookupP p l1 = none ∧ lookupP p l2 = some b) := by
  cases h1 : lookupP p l1 with
  | none => right; exact ⟨rfl, by rwa [lookupP_append_none p l1 l2 h1] at h⟩
  | some b' =>
    rw [lookupP_append_some p l1 l2 b' h1] at h
    exact Or.inl h

theorem lookupP_single {α : Type} (p k : Path) (v b : α)
    (h : lookupP p [(k, v)] = some b) : p = k ∧ b = v := by
  rcases Classical.em (k = p) with hkp | hkp
  · simp [lookupP, hkp] at h
    exact ⟨hkp.symm, h.symm⟩
  · simp [lookupP, hkp] at h

theorem lookupP_removeP {α : Type} (p q : Path) (l : List (Path × α)) :
    lookupP p (removeP q l) = if p = q then none else lookupP p l := by
  induction l with
  | nil => simp [lookupP, removeP]
  | cons e l ih =>
    obtain ⟨k, v⟩ := e
    rw [removeP]
    rcases Classical.em (k = q) with hkq | hkq
    · rw [if_pos hkq, ih]
      rcases Classical.em (p = q) with hpq | hpq
      · simp [hpq]
      · have hkp : ¬ k = p := fun hh => hpq (by rw [← hh, hkq])
        simp [hpq, lookupP, hkp]
    · rw [if_neg hkq, lookupP]
      rcases Classical.em (k = p) with hkp | hkp
      · have hpq : ¬ p = q := fun hh => hkq (hkp.trans hh)
        simp [hkp, lookupP, hpq]
      · simp [hkp, ih, lookupP]

theorem containsP_of_lookup {α : Type} (p : Path) (l : List (Path × α)) (b : α)
    (h : lookupP p l = some b) : containsP p l = true := by
  simp [containsP, h]

theorem containsP_exists {α : Type} (p : Path) (l : List (Path × α))
    (h : containsP p l = true) : ∃ b, lookupP p l = some b := by
  simpa [containsP, Option.isSome_iff_exists] using h

theorem containsP_false_lookup {α : Type} (p : Path) (l : List (Path × α))
    (h : containsP p l = false) : lookupP p l = none := by
  cases hl : lookupP p l with
  | none => rfl
  | some b => rw [containsP, hl] at h; cases h

/-! Occurrences of `Id` paths through the structural passes. -/

theorem tokIdsList_append (l1 l2 : List Token) :
    tokIdsList (l1 ++ l2) = tokIdsList l1 ++ tokIdsList l2 := by
  induction l1 with
  | nil => simp [tokIdsList]
  | cons t l ih => cases t <;> simp [tokIdsList, ih, List.append_assoc]

theorem astIdsList_append (l1 l2 : List AST) :
    astIdsList (l1 ++ l2) = astIdsList l1 ++ astIdsList l2 := by
  induction l1 with
  | nil => simp [astIdsList]
  | cons a l ih => cases a <;> simp [astIdsList, ih, List.append_assoc]

theorem mem_tokIdsList_reverse (q : Path) (l : List Token) :
    q ∈ tokIdsList l.reverse ↔ q ∈ tokIdsList l := by
  induction l with
  | nil => simp
  | cons t l ih =>
    rw [List.reverse_cons, tokIdsList_append]
    cases t <;> simp [tokIdsList, ih] <;> tauto

theorem tokIds_closeAll (stack : List (List Token)) :
    ∀ cur q, q ∈ tokIdsList (closeAll cur stack) →
      q ∈ tokIdsList cur ∨ ∃ g ∈ stack, q ∈ tokIdsList g := by
  induction stack with
  | nil => intro cur q h; exact Or.inl (by simpa [closeAll] using h)
  | cons outer rest ih =>
    intro cur q h
    rw [closeAll] at h
    rcases ih _ q h with h' | ⟨g, hg, hq⟩
    · rw [tokIdsList_append] at h'
      rcases List.mem_append.mp h' with h'' | h''
      · exact Or.inr ⟨outer, by simp, h''⟩
      · simp [tokIdsList] at h''
        exact Or.inl h''
    · exact Or.inr ⟨g, by simp [hg], hq⟩

theorem pbGo_cons_other (t : Token) (ts cur : List Token) (stack : List (List Token))
    (h1 : t ≠ Token.LBracket) (h2 : t ≠ Token.RBracket) :
    pbGo (t :: ts) cur stack = pbGo ts (cur ++ [t]) stack := by
  cases t <;> simp_all [pbGo]

theorem pbGo_cons_lbracket (ts cur : List Token) (stack : List (List Token)) :
    pbGo (Token.LBracket :: ts) cur stack = pbGo ts [] (cur :: stack) := by
  simp [pbGo]

theorem pbGo_cons_rbracket (ts cur : List Token) (stack : List (List Token)) :
    pbGo (Token.RBracket :: ts) cur stack
      = match stack with
        | [] => cur
        | outer :: rest => pbGo ts (outer ++ [Token.Bracket cur]) rest := by
  simp [pbGo]

theorem tokIdsList_cons (t : Token) (ts : List Token) :
    tokIdsList (t :: ts) = tokIdsList [t] ++ tokIdsList ts :=
  tokIdsList_append [t] ts

theorem tokIds_pbGo (ts : List Token) :
    ∀ cur stack q, q ∈ tokIdsList (pbGo ts cur stack) →
      q ∈ tokIdsList ts ∨ q ∈ tokIdsList cur ∨ ∃ g ∈ stack, q ∈ tokIdsList g := by
  induction ts with
  | nil =>
    intro cur stack q h
    rw [pbGo] at h
    rcases tokIds_closeAll stack cur q h with h' | h'
    · exact Or.inr (Or.inl h')
    · exact Or.inr (Or.inr h')
  | cons t ts ih =>
    intro cur stack q h
    rcases Classical.em (t = Token.LBracket) with rfl | hnl
    · rw [pbGo_cons_lbracket] at h
      rcases ih [] (cur :: stack) q h with h' | h' | ⟨g, hg, hq⟩
      · exact Or.inl (by rw [tokIdsList_cons]; exact List.mem_append_right _ h')
      · simp [tokIdsList] at h'
      · rcases List.mem_cons.mp hg with hg' | hg'
        · exact Or.inr (Or.inl (hg' ▸ hq))
        · exact Or.inr (Or.inr ⟨g, hg', hq⟩)
    rcases Classical.em (t = Token.RBracket) with rfl | hnr
    · rw [pbGo_cons_rbracket] at h
      cases stack with
      | nil => exact Or.inr (Or.inl h)
      | cons outer rest =>
        rcases ih _ rest q h with h' | h' | ⟨g, hg, hq⟩
        · exact Or.inl (by rw [tokIdsList_cons]; exact List.mem_append_right _ h')
        · rw [tokIdsList_append] at h'
          rcases List.mem_append.mp h' with h'' | h''
          · exact Or.inr (Or.inr ⟨outer, by simp, h''⟩)
          · simp [tokIdsList] at h''
            exact Or.inr (Or.inl h'')
        · exact Or.inr (Or.inr ⟨g, by simp [hg], hq⟩)
    · rw [pbGo_cons_other t ts cur stack hnl hnr] at h
      rcases ih _ stack q h with h' | h' | h'
      · exact Or.inl (by rw [tokIdsList_cons]; exact List.mem_append_right _ h')
      · rw [tokIdsList_append] at h'
        rcases List.mem_append.mp h' with h'' | h''
        · exact Or.inr (Or.inl h'')
        · exact Or.inl (by rw [tokIdsList_cons]; exact List.mem_append_left _ h'')
      · exact Or.inr (Or.inr h')

/-- The bracket pass introduces no new `Id` occurrences. -/
theorem tokIds_parse_brackets (ts : List Token) (q : Path)
    (h : q ∈ tokIdsList (parse_brackets ts)) : q ∈ tokIdsList ts := by
  rcases tokIds_pbGo ts [] [] q h with h' | h' | ⟨g, hg, _⟩
  · exact h'
  · simp [tokIdsList] at h'
  · simp at hg

/-- The colon pass introduces no new `Id` occurrences. -/
theorem tokIds_pcGo (ts left right : List Token) (sp : Bool) :
    ∀ res, pcGo ts left right sp = .ok res →
      ∀ q, q ∈ tokIdsList res →
        q ∈ tokIdsList ts ∨ q ∈ tokIdsList left ∨ q ∈ tokIdsList right := by
  induction ts, left, right, sp using pcGo.induct with
  | case1 left right =>
    intro res h q hq
    rw [pcGo] at h
    cases h
    simp only [tokIdsList, List.append_nil] at hq
    rcases List.mem_append.mp hq with h' | h'
    · exact Or.inr (Or.inl h')
    · exact Or.inr (Or.inr h')
  | case2 left right sp hsp =>
    intro res h q hq
    rw [pcGo] at h
    rw [if_neg hsp] at h
    cases h
    exact Or.inr (Or.inl hq)
  | case3 ts left right =>
    intro res h q hq
    simp [pcGo] at h
  | case4 ts left right sp hsp ih =>
    intro res h q hq
    rw [pcGo, if_neg hsp] at h
    rcases ih res h q hq with h' | h'
    · exact Or.inl (by rw [tokIdsList_cons]; exact List.mem_append_right _ h')
    · exact Or.inr h'
  | case5 g ts left right sp e hg ihg =>
    intro res h q hq
    cases sp
    · rw [pcGo_cons_bracket_false, hg] at h
      dsimp only at h
      cases h
    · rw [pcGo_cons_bracket_true, hg] at h
      dsimp only at h
      cases h
  | case6 g ts left right g' hg ihg ih =>
    intro res h q hq
    rw [pcGo_cons_bracket_true, hg] at h
    dsimp only at h
    rcases ih res h q hq with h' | h' | h'
    · exact Or.inl (by rw [tokIdsList_cons]; exact List.mem_append_right _ h')
    · exact Or.inr (Or.inl h')
    · rw [tokIdsList_append] at h'
      rcases List.mem_append.mp h' with h'' | h''
      · exact Or.inr (Or.inr h'')
      · simp only [tokIdsList, List.append_nil] at h''
        rcases ihg g' hg q h'' with h3 | h3 | h3
        · refine Or.inl ?_
          rw [tokIdsList_cons]
          refine List.mem_append_left _ ?_
          simpa [tokIdsList] using h3
        · simp [tokIdsList] at h3
        · simp [tokIdsList] at h3
  | case7 g ts left right sp g' hg hsp ihg ih =>
    intro res h q hq
    have hspf : sp = false := by
      cases sp with
      | false => rfl
      | true => exact absurd rfl hsp
    subst hspf
    rw [pcGo_cons_bracket_false, hg] at h
    dsimp only at h
    rcases ih res h q hq with h' | h' | h'
    · exact Or.inl (by rw [tokIdsList_cons]; exact List.mem_append_right _ h')
    · rw [tokIdsList_append] at h'
      rcases List.mem_append.mp h' with h'' | h''
      · exact Or.inr (Or.inl h'')
      · simp only [tokIdsList, List.append_nil] at h''
        rcases ihg g' hg q h'' with h3 | h3 | h3
        · refine Or.inl ?_
          rw [tokIdsList_cons]
          refine List.mem_append_left _ ?_
          simpa [tokIdsList] using h3
        · simp [tokIdsList] at h3
        · simp [tokIdsList] at h3
    · exact Or.inr (Or.inr h')
  | case8 t ts left right hnc hnb ih =>
    intro res h q hq
    rw [show pcGo (t :: ts) left right true = pcGo ts left (right ++ [t]) true from
      pcGo_cons_other_true t ts left right (fun hh => hnc hh) hnb] at h
    rcases ih res h q hq with h' | h' | h'
    · exact Or.inl (by rw [tokIdsList_cons]; exact List.mem_append_right _ h')
    · exact Or.inr (Or.inl h')
    · rw [tokIdsList_append] at h'
      rcases List.mem_append.mp h' with h'' | h''
      · exact Or.inr (Or.inr h'')
      · exact Or.inl (by rw [tokIdsList_cons]; exact List.mem_append_left _ h'')
  | case9 t ts left right sp hnc hnb hsp ih =>
    intro res h q hq
    rw [show pcGo (t :: ts) left right sp = pcGo ts (left ++ [t]) right sp from by
      cases hb : sp
      · exact pcGo_cons_other_false t ts left right (fun hh => hnc hh) hnb
      · exact absurd hb hsp] at h
    rcases ih res h q hq with h' | h' | h'
    · exact Or.inl (by rw [tokIdsList_cons]; exact List.mem_append_right _ h')
    · rw [tokIdsList_append] at h'
      rcases List.mem_append.mp h' with h'' | h''
      · exact Or.inr (Or.inl h'')
      · exact Or.inl (by rw [tokIdsList_cons]; exact List.mem_append_left _ h'')
    · exact Or.inr (Or.inr h')

/-- The colon pass on a whole body introduces no new `Id` occurrences. -/
theorem tokIds_parse_colon (ts res : List Token) (h : parse_colon ts = .ok res)
    (q : Path) (hq : q ∈ tokIdsList res) : q ∈ tokIdsList ts := by
  rcases tokIds_pcGo ts [] [] false res h q hq with h' | h' | h'
  · exact h'
  · simp [tokIdsList] at h'
  · simp [tokIdsList] at h'

/-- The AST builder introduces no new `Id` occurrences. -/
theorem astIds_buildRev (rts : List Token) (acc : List AST) :
    ∀ q, q ∈ astIdsList (buildRev rts acc) →
      q ∈ tokIdsList rts ∨ q ∈ astIdsList acc := by
  induction rts, acc using buildRev.induct with
  | case1 acc => intro q h; exact Or.inr (by simpa [buildRev] using h)
  | case2 g ts acc ihg ih =>
    intro q h
    rw [buildRev] at h
    rcases ih q h with h' | h'
    · exact Or.inl (by rw [tokIdsList_cons]; exact List.mem_append_right _ h')
    · have hg : q ∈ tokIdsList g.reverse → q ∈ tokIdsList (Token.Bracket g :: ts) := by
        intro hh
        rw [tokIdsList_cons]
        exact List.mem_append_left _
          (by simpa [tokIdsList] using (mem_tokIdsList_reverse q g).mp hh)
      split at h'
      · rcases ihg q h' with h'' | h''
        · exact Or.inl (hg h'')
        · simp [astIdsList] at h''
      · rw [astIdsList_append] at h'
        rcases List.mem_append.mp h' with h'' | h''
        · exact Or.inr h''
        · simp only [astIdsList, List.append_nil] at h''
          rcases ihg q h'' with h3 | h3
          · exact Or.inl (hg h3)
          · simp [astIdsList] at h3
  | case3 l r ts acc ihl ihr ih =>
    intro q h
    rw [buildRev] at h
    rcases ih q h with h' | h'
    · exact Or.inl (by rw [tokIdsList_cons]; exact List.mem_append_right _ h')
    · rw [astIdsList_append] at h'
      rcases List.mem_append.mp h' with h'' | h''
      · exact Or.inr h''
      · simp only [astIdsList, List.append_nil] at h''
        rw [tokIdsList_cons]
        rcases List.mem_append.mp h'' with h3 | h3
        · rcases ihl q h3 with h4 | h4
          · exact Or.inl (List.mem_append_left _ (by
              simp only [tokIdsList, List.append_nil]
              exact List.mem_append_left _ ((mem_tokIdsList_reverse q l).mp h4)))
          · simp [astIdsList] at h4
        · rcases ihr q h3 with h4 | h4
          · exact Or.inl (List.mem_append_left _ (by
              simp only [tokIdsList, List.append_nil]
              exact List.mem_append_right _ ((mem_tokIdsList_reverse q r).mp h4)))
          · simp [astIdsList] at h4
  | case4 ts acc ih =>
    intro q h
    rw [buildRev] at h
    rcases ih q h with h' | h'
    · exact Or.inl (by rw [tokIdsList_cons]; exact List.mem_append_right _ h')
    · rw [astIdsList_append] at h'
      rcases List.mem_append.mp h' with h'' | h''
      · exact Or.inr h''
      · simp [astIdsList] at h''
  | case5 ts acc ih =>
    intro q h
    rw [buildRev] at h
    rcases ih q h with h' | h'
    · exact Or.inl (by rw [tokIdsList_cons]; exact List.mem_append_right _ h')
    · rw [astIdsList_append] at h'
      rcases List.mem_append.mp h' with h'' | h''
      · exact Or.inr h''
      · simp [astIdsList] at h''
  | case6 ts acc ih =>
    intro q h
    rw [buildRev] at h
    rcases ih q h with h' | h'
    · exact Or.inl (by rw [tokIdsList_cons]; exact List.mem_append_right _ h')
    · rw [astIdsList_append] at h'
      rcases List.mem_append.mp h' with h'' | h''
      · exact Or.inr h''
      · simp [astIdsList] at h''
  | case7 ts acc ih =>
    intro q h
    rw [buildRev] at h
    rcases ih q h with h' | h'
    · exact Or.inl (by rw [tokIdsList_cons]; exact List.mem_append_right _ h')
    · rw [astIdsList_append] at h'
      rcases List.mem_append.mp h' with h'' | h''
      · exact Or.inr h''
      · simp [astIdsList] at h''
  | case8 i ts acc ih =>
    intro q h
    rw [buildRev] at h
    rcases ih q h with h' | h'
    · exact Or.inl (by rw [tokIdsList_cons]; exact List.mem_append_right _ h')
    · rw [astIdsList_append] at h'
      rcases List.mem_append.mp h' with h'' | h''
      · exact Or.inr h''
      · simp only [astIdsList, List.append_nil] at h''
        rcases List.mem_singleton.mp h'' with rfl
        exact Or.inl (by rw [tokIdsList_cons]; exact List.mem_append_left _ (by
          simp [tokIdsList]))
  | case9 t ts acc hb hs h1 h2 h3 h4 hi ih =>
    intro q h
    rw [show buildRev (t :: ts) acc = buildRev ts acc from by
      cases t <;> simp_all [buildRev]] at h
    rcases ih q h with h' | h'
    · exact Or.inl (by rw [tokIdsList_cons]; exact List.mem_append_right _ h')
    · exact Or.inr h'

/-- `parse_functions` introduces no new `Id` occurrences. -/
theorem astIds_parse_functions (ts : List Token) (q : Path)
    (h : q ∈ astIdsList (parse_functions ts)) : q ∈ tokIdsList ts := by
  rcases astIds_buildRev ts.reverse [] q h with h' | h'
  · exact (mem_tokIdsList_reverse q ts).mp h'
  · simp [astIdsList] at h'

/-! Resolution facts. -/

/-- Raw bodies produced by the scan loop contain only flat lexer tokens,
never the structural `Bracket`/`Split` nodes built later. -/
def flatTok : Token → Bool
  | Token.Bracket _ => false
  | Token.Split _ _ => false
  | _ => true

/-- Every raw body in the table is flat. -/
def FlatFns (fns : Fns) : Prop :=
  ∀ p b, lookupP p fns = some b → b.all flatTok = true

/-- Every `Id` inside a resolved body refers to a resolved or still-pending
function. -/
def Closed1 (defs : Defs) (fns : Fns) : Prop :=
  ∀ p b, lookupP p defs = some b →
    ∀ q ∈ astIdsList b, containsP q defs = true ∨ containsP q fns = true

/-- The resolved and pending tables have disjoint keys. -/
def Disj (defs : Defs) (fns : Fns) : Prop :=
  ∀ p, containsP p defs = true → containsP p fns = false

theorem scanPrefixes_ok_some (mtch : Path → Bool) (i : Path) :
    ∀ (ps : List Path) (found : Option Path) (x : Path),
      scanPrefixes mtch i ps found = .ok (some x) →
      found = some x ∨ mtch x = true := by
  intro ps
  induction ps with
  | nil =>
    intro found x h
    simp only [scanPrefixes] at h
    cases h
    exact Or.inl rfl
  | cons pre rest ih =>
    intro found x h
    simp only [scanPrefixes] at h
    split at h
    · cases found with
      | none =>
        rcases ih _ x h with h' | h'
        · cases h'; right; assumption
        · exact Or.inr h'
      | some y => cases h
    · exact ih _ x h

theorem resolveId_ok_matches (current dirn : Path) (fns : Fns) (defs : Defs)
    (imports : Imports) (i x : Path)
    (h : resolveId current dirn fns defs imports i = .ok x) :
    matchB current fns defs x = true := by
  rw [resolveId] at h
  split at h
  · cases h
    assumption
  · split at h
    · cases h
    · cases h
      rename_i heq
      rcases scanPrefixes_ok_some _ _ _ _ _ heq with h' | h'
      · cases h'
      · exact h'
    · split at h
      · cases h
      · split at h
        · cases h
        · cases h
          rename_i heq2
          rcases scanPrefixes_ok_some _ _ _ _ _ heq2 with h' | h'
          · cases h'
          · exact h'
        · cases h

/-- What the token loop of `parse_funcs` guarantees: every `Id` in the
rewritten body is one of the collected `to_parse` paths, and every collected
path passed the match test. -/
theorem resolveBody_ok (current dirn : Path) (fns : Fns) (defs : Defs)
    (imports : Imports) :
    ∀ (f : List Token) (nf : List Token) (tp : List Path),
      resolveBody current dirn fns defs imports f = .ok (nf, tp) →
      f.all flatTok = true →
      (∀ q, q ∈ tokIdsList nf → q ∈ tp)
      ∧ (∀ x ∈ tp, matchB current fns defs x = true) := by
  intro f
  induction f with
  | nil =>
    intro nf tp h _
    rw [resolveBody] at h
    cases h
    exact ⟨fun q hq => by simp [tokIdsList] at hq, fun x hx => by simp at hx⟩
  | cons t ts ih =>
    intro nf tp h hflat
    simp only [List.all_cons, Bool.and_eq_true] at hflat
    rcases Classical.em (∃ j, t = Token.Id j) with ⟨j, rfl⟩ | hnid
    · rw [resolveBody] at h
      cases hr : resolveId current dirn fns defs imports j with
      | error e => rw [hr] at h; cases h
      | ok x =>
        rw [hr] at h
        dsimp only at h
        cases hb : resolveBody current dirn fns defs imports ts with
        | error e => rw [hb] at h; cases h
        | ok pr =>
          obtain ⟨nf', tp'⟩ := pr
          rw [hb] at h
          dsimp only at h
          cases h
          obtain ⟨hids, hmat⟩ := ih _ _ hb hflat.2
          constructor
          · intro q hq
            rw [tokIdsList_cons] at hq
            rcases List.mem_append.mp hq with h' | h'
            · simp only [tokIdsList, List.append_nil] at h'
              rcases List.mem_singleton.mp h' with rfl
              exact List.mem_cons_self _ _
            · exact List.mem_cons_of_mem _ (hids q h')
          · intro y hy
            rcases List.mem_cons.mp hy with rfl | hy'
            · exact resolveId_ok_matches current dirn fns defs imports j y hr
            · exact hmat y hy'
    · have hstep : resolveBody current dirn fns defs imports (t :: ts)
          = match resolveBody current dirn fns defs imports ts with
            | .error e => .error e
            | .ok (nf, tp) => .ok (t :: nf, tp) := by
        cases t <;> simp_all [resolveBody]
      rw [hstep] at h
      cases hb : resolveBody current dirn fns defs imports ts with
      | error e => rw [hb] at h; cases h
      | ok pr =>
        obtain ⟨nf', tp'⟩ := pr
        rw [hb] at h
        dsimp only at h
        cases h
        obtain ⟨hids, hmat⟩ := ih _ _ hb hflat.2
        refine ⟨fun q hq => ?_, hmat⟩
        rw [tokIdsList_cons] at hq
        rcases List.mem_append.mp hq with h' | h'
        · cases t <;> simp_all [tokIdsList, flatTok]
        · exact hids q h'

theorem astIdsList_cons (a : AST) (b : List AST) :
    astIdsList (a :: b) = astIdsList [a] ++ astIdsList b :=
  astIdsList_append [a] b

/-- The invariants `parse_funcs` maintains between its input tables
(`defs`, `fns`) and output tables (`defs'`, `fns'`). -/
structure ResPost (defs : Defs) (fns : Fns) (defs' : Defs) (fns' : Fns) : Prop where
  preserve : ∀ p b, lookupP p defs = some b → lookupP p defs' = some b
  shrink : ∀ p b, lookupP p fns' = some b → lookupP p fns = some b
  union : ∀ p, containsP p defs = true ∨ containsP p fns = true →
    containsP p defs' = true ∨ containsP p fns' = true
  closed : Closed1 defs' fns'
  disj : Disj defs' fns'
  newClosed : ∀ p b, lookupP p defs' = some b →
    lookupP p defs = some b ∨ ∀ q ∈ astIdsList b, containsP q defs' = true

theorem ResPost.id_post (defs : Defs) (fns : Fns) (hc : Closed1 defs fns)
    (hd : Disj defs fns) : ResPost defs fns defs fns :=
  ⟨fun _ _ h => h, fun _ _ h => h, fun _ h => h, hc, hd, fun _ _ h => Or.inl h⟩

theorem ResPost.comp {d0 d1 d2 : Defs} {f0 f1 f2 : Fns}
    (h1 : ResPost d0 f0 d1 f1) (h2 : ResPost d1 f1 d2 f2) : ResPost d0 f0 d2 f2 := by
  refine ⟨?_, ?_, ?_, h2.closed, h2.disj, ?_⟩
  · exact fun p b h => h2.preserve p b (h1.preserve p b h)
  · exact fun p b h => h1.shrink p b (h2.shrink p b h)
  · exact fun p h => h2.union p (h1.union p h)
  · intro p b h
    rcases h2.newClosed p b h with h' | h'
    · rcases h1.newClosed p b h' with h'' | h''
      · exact Or.inl h''
      · refine Or.inr fun q hq => ?_
        obtain ⟨b', hb'⟩ := containsP_exists q d1 (h'' q hq)
        exact containsP_of_lookup q d2 b' (h2.preserve q b' hb')
    · exact Or.inr h'

/-- What a successful `parse_funcs` call guarantees. -/
def MainPost (fuel : Nat) : Prop :=
  ∀ current defs fns imports defs' fns',
    Closed1 defs fns → Disj defs fns → FlatFns fns →
    parse_funcs fuel current defs fns imports = .ok (defs', fns') →
    ResPost defs fns defs' fns' ∧ containsP current fns' = false

/-- What a successful `to_parse` loop guarantees. -/
def ListPost (fuel : Nat) : Prop :=
  ∀ xs defs fns imports defs' fns',
    Closed1 defs fns → Disj defs fns → FlatFns fns →
    parse_funcs_list fuel xs defs fns imports = .ok (defs', fns') →
    ResPost defs fns defs' fns' ∧ ∀ x ∈ xs, containsP x fns' = false

theorem listPost_of_mainPost (fuel : Nat) (hm : MainPost fuel) : ListPost fuel := by
  intro xs
  induction xs with
  | nil =>
    intro defs fns imports defs' fns' hc hd hf h
    rw [parse_funcs_list] at h
    cases h
    exact ⟨ResPost.id_post _ _ hc hd, fun x hx => by simp at hx⟩
  | cons x xs ih =>
    intro defs fns imports defs' fns' hc hd hf h
    rw [parse_funcs_list] at h
    cases hs : parse_funcs fuel x defs fns imports with
    | error e => rw [hs] at h; cases h
    | ok pr =>
      obtain ⟨d1, f1⟩ := pr
      rw [hs] at h
      dsimp only at h
      obtain ⟨P1, hx⟩ := hm x defs fns imports d1 f1 hc hd hf hs
      have hf1 : FlatFns f1 := fun p b hb => hf p b (P1.shrink p b hb)
      obtain ⟨P2, hxs⟩ := ih d1 f1 imports defs' fns' P1.closed P1.disj hf1 h
      refine ⟨P1.comp P2, fun y hy => ?_⟩
      rcases List.mem_cons.mp hy with rfl | hy'
      · cases hcy : containsP y fns' with
        | false => rfl
        | true =>
          obtain ⟨b, hb⟩ := containsP_exists y fns' hcy
          have hly := containsP_of_lookup y f1 b (P2.shrink y b hb)
          rw [hly] at hx
          cases hx
      · exact hxs y hy'

theorem mainPost_succ (fuel : Nat) (hl : ListPost fuel) : MainPost (fuel + 1) := by
  intro current defs fns imports defs' fns' hc hd hf h
  rw [parse_funcs] at h
  cases hcur : lookupP current fns with
  | none =>
    rw [hcur] at h
    dsimp only at h
    cases h
    exact ⟨ResPost.id_post _ _ hc hd, by simp [containsP, hcur]⟩
  | some f =>
    rw [hcur] at h
    dsimp only at h
    cases hres : resolveBody current current.dropLast (removeP current fns) defs imports f with
    | error e => rw [hres] at h; cases h
    | ok pr =>
      obtain ⟨new_f, to_parse⟩ := pr
      rw [hres] at h
      dsimp only at h
      cases hpc : parse_colon (parse_brackets new_f) with
      | error e => rw [hpc] at h; cases h
      | ok pc =>
        rw [hpc] at h
        dsimp only at h
        have hcurfns : containsP current fns = true := containsP_of_lookup _ _ _ hcur
        have hcurdefs : containsP current defs = false := by
          cases hcd : containsP current defs with
          | false => rfl
          | true => rw [hd current hcd] at hcurfns; cases hcurfns
        have hcurdefs' : lookupP current defs = none :=
          containsP_false_lookup _ _ hcurdefs
        have hcurD1 : lookupP current (defs ++ [(current, parse_functions pc)])
            = some (parse_functions pc) := by
          rw [lookupP_append_none current defs _ hcurdefs']
          simp [lookupP]
        have hflatf : f.all flatTok = true := hf current f hcur
        obtain ⟨hids, hmat⟩ := resolveBody_ok current current.dropLast
          (removeP current fns) defs imports f new_f to_parse hres hflatf
        have hbody : ∀ q ∈ astIdsList (parse_functions pc), q ∈ to_parse := by
          intro q hq
          exact hids q (tokIds_parse_brackets new_f q
            (tokIds_parse_colon (parse_brackets new_f) pc hpc q
              (astIds_parse_functions pc q hq)))
        have htarget : ∀ x ∈ to_parse,
            containsP x (defs ++ [(current, parse_functions pc)]) = true
            ∨ containsP x (removeP current fns) = true := by
          intro x hx
          have hm := hmat x hx
          rw [matchB] at hm
          simp only [Bool.or_eq_true, decide_eq_true_eq] at hm
          rcases hm with (rfl | hm) | hm
          · exact Or.inl (containsP_of_lookup _ _ _ hcurD1)
          · exact Or.inr hm
          · obtain ⟨b, hb⟩ := containsP_exists x defs hm
            exact Or.inl (containsP_of_lookup _ _ _ (lookupP_append_some x defs _ b hb))
        have hc1 : Closed1 (defs ++ [(current, parse_functions pc)])
            (removeP current fns) := by
          intro p b hb q hq
          rcases lookupP_append_cases p defs _ b hb with hb' | ⟨hnone, hb'⟩
          · rcases hc p b hb' q hq with h' | h'
            · obtain ⟨b2, hb2⟩ := containsP_exists q defs h'
              exact Or.inl (containsP_of_lookup _ _ _ (lookupP_append_some q defs _ b2 hb2))
            · rcases Classical.em (q = current) with rfl | hqc
              · exact Or.inl (containsP_of_lookup _ _ _ hcurD1)
              · refine Or.inr ?_
                obtain ⟨b2, hb2⟩ := containsP_exists q fns h'
                refine containsP_of_lookup _ _ b2 ?_
                rw [lookupP_removeP, if_neg hqc]
                exact hb2
          · obtain ⟨rfl, rfl⟩ := lookupP_single p current _ b hb'
            exact htarget q (hbody q hq)
        have hd1 : Disj (defs ++ [(current, parse_functions pc)])
            (removeP current fns) := by
          intro p hp
          obtain ⟨b, hb⟩ := containsP_exists p _ hp
          rcases lookupP_append_cases p defs _ b hb with hb' | ⟨hnone, hb'⟩
          · have hfalse := hd p (containsP_of_lookup _ _ _ hb')
            cases hcp : containsP p (removeP current fns) with
            | false => rfl
            | true =>
              obtain ⟨b2, hb2⟩ := containsP_exists p _ hcp
              rw [lookupP_removeP] at hb2
              split at hb2
              · cases hb2
              · rw [containsP, hb2] at hfalse; cases hfalse
          · obtain ⟨rfl, _⟩ := lookupP_single p current _ b hb'
            have hnone2 : lookupP p (removeP p fns) = none := by
              rw [lookupP_removeP]; simp
            simp [containsP, hnone2]
        have hf1 : FlatFns (removeP current fns) := by
          intro p b hb
          rw [lookupP_removeP] at hb
          split at hb
          · cases hb
          · exact hf p b hb
        obtain ⟨P1, hwork⟩ := hl to_parse _ _ imports defs' fns' hc1 hd1 hf1 h
        have hcur' : containsP current fns' = false := by
          cases hcc : containsP current fns' with
          | false => rfl
          | true =>
            obtain ⟨b, hb⟩ := containsP_exists current fns' hcc
            have hsh := P1.shrink current b hb
            rw [lookupP_removeP] at hsh
            simp at hsh
        refine ⟨⟨?_, ?_, ?_, P1.closed, P1.disj, ?_⟩, hcur'⟩
        · intro p b hb
          exact P1.preserve p b (lookupP_append_some p defs _ b hb)
        · intro p b hb
          have hsh := P1.shrink p b hb
          rw [lookupP_removeP] at hsh
          split at hsh
          · cases hsh
          · exact hsh
        · intro p hp
          refine P1.union p ?_
          rcases hp with hp | hp
          · obtain ⟨b, hb⟩ := containsP_exists p defs hp
            exact Or.inl (containsP_of_lookup _ _ _ (lookupP_append_some p defs _ b hb))
          · rcases Classical.em (p = current) with rfl | hpc
            · exact Or.inl (containsP_of_lookup _ _ _ hcurD1)
            · refine Or.inr ?_
              obtain ⟨b, hb⟩ := containsP_exists p fns hp
              refine containsP_of_lookup _ _ b ?_
              rw [lookupP_removeP, if_neg hpc]
              exact hb
        · intro p b hb
          rcases P1.newClosed p b hb with hb' | hb'
          · rcases lookupP_append_cases p defs _ b hb' with hb'' | ⟨hnone, hb''⟩
            · exact Or.inl hb''
            · obtain ⟨rfl, rfl⟩ := lookupP_single p current _ b hb''
              refine Or.inr fun q hq => ?_
              have hq' := hbody q hq
              rcases htarget q hq' with ht | ht
              · rcases P1.union q (Or.inl ht) with h' | h'
                · exact h'
                · rw [hwork q hq'] at h'; cases h'
              · rcases P1.union q (Or.inr ht) with h' | h'
                · exact h'
                · rw [hwork q hq'] at h'; cases h'
          · exact Or.inr hb'

theorem mainPost_all : ∀ fuel, MainPost fuel := by
  intro fuel
  induction fuel with
  | zero =>
    intro current defs fns imports defs' fns' _ _ _ h
    simp [parse_funcs] at h
  | succ fuel ih => exact mainPost_succ fuel (listPost_of_mainPost fuel ih)

/-- Executing any body whose `Id`s all lie in a table closed under its own
`Id` references never produces the missing-function failure. -/
theorem do_ast_no_missing (program : Defs)
    (hclosed : ∀ p b, lookupP p program = some b →
      ∀ q ∈ astIdsList b, containsP q program = true) :
    ∀ fuel body st, (∀ q ∈ astIdsList body, containsP q program = true) →
      ∀ p, do_ast program fuel body st ≠ .error (.MissingFunction p) := by
  intro fuel
  induction fuel with
  | zero =>
    intro body st hb p h
    simp [do_ast] at h
  | succ fuel ihf =>
    intro body
    induction body with
    | nil =>
      intro st hb p h
      simp [do_ast] at h
    | cons a rest ihr =>
      intro st hb p h
      have hbrest : ∀ q ∈ astIdsList rest, containsP q program = true := by
        intro q hq
        exact hb q (by rw [astIdsList_cons]; exact List.mem_append_right _ hq)
      cases a with
      | Left =>
        rw [show do_ast program (fuel + 1) (AST.Left :: rest) st
            = do_ast program (fuel + 1) rest { st with stack := true :: st.stack }
          from by simp [do_ast]] at h
        exact ihr _ hbrest p h
      | Right =>
        rw [show do_ast program (fuel + 1) (AST.Right :: rest) st
            = do_ast program (fuel + 1) rest { st with stack := false :: st.stack }
          from by simp [do_ast]] at h
        exact ihr _ hbrest p h
      | Print =>
        rw [show do_ast program (fuel + 1) (AST.Print :: rest) st
            = do_ast program (fuel + 1) rest
                ⟨(popByte 8 0 st.stack).2, st.input,
                  st.output ++ [(popByte 8 0 st.stack).1]⟩
          from by simp [do_ast]] at h
        exact ihr _ hbrest p h
      | Read =>
        rw [show do_ast program (fuel + 1) (AST.Read :: rest) st
            = match st.input with
              | [] => .error .NoInput
              | c :: inp =>
                if c < 256 then
                  do_ast program (fuel + 1) rest ⟨pushBits 8 c st.stack, inp, st.output⟩
                else .error .ByteTooLarge
          from by simp [do_ast]] at h
        cases hinp : st.input with
        | nil => rw [hinp] at h; cases h
        | cons c inp =>
          rw [hinp] at h
          dsimp only at h
          split at h
          · exact ihr _ hbrest p h
          · cases h
      | Split l r =>
        rw [show do_ast program (fuel + 1) (AST.Split l r :: rest) st
            = match do_ast program fuel (if (popBit st.stack).1 then l else r)
                  { st with stack := (popBit st.stack).2 } with
              | .error e => .error e
              | .ok st' => do_ast program (fuel + 1) rest st'
          from by simp [do_ast]] at h
        have hbr : ∀ q ∈ astIdsList (if (popBit st.stack).1 then l else r),
            containsP q program = true := by
          intro q hq
          refine hb q ?_
          rw [astIdsList_cons]
          refine List.mem_append_left _ ?_
          simp only [astIdsList, List.append_nil]
          split at hq
          · exact List.mem_append_left _ hq
          · exact List.mem_append_right _ hq
        cases hnest : do_ast program fuel (if (popBit st.stack).1 then l else r)
            { st with stack := (popBit st.stack).2 } with
        | error e =>
          rw [hnest] at h
          cases h
          exact ihf _ _ hbr p hnest
        | ok st' =>
          rw [hnest] at h
          exact ihr _ hbrest p h
      | Bracketed c =>
        rw [show do_ast program (fuel + 1) (AST.Bracketed c :: rest) st
            = match do_ast program fuel c st with
              | .error e => .error e
              | .ok st' => do_ast program (fuel + 1) rest st'
          from by simp [do_ast]] at h
        have hbr : ∀ q ∈ astIdsList c, containsP q program = true := by
          intro q hq
          refine hb q ?_
          rw [astIdsList_cons]
          refine List.mem_append_left _ ?_
          simpa [astIdsList] using hq
        cases hnest : do_ast program fuel c st with
        | error e =>
          rw [hnest] at h
          cases h
          exact ihf _ _ hbr p hnest
        | ok st' =>
          rw [hnest] at h
          exact ihr _ hbrest p h
      | Id i =>
        have hmem : containsP i program = true := by
          refine hb i ?_
          rw [astIdsList_cons]
          exact List.mem_append_left _ (by simp [astIdsList])
        obtain ⟨bdy, hbdy⟩ := containsP_exists i program hmem
        rw [show do_ast program (fuel + 1) (AST.Id i :: rest) st
            = match do_ast program fuel bdy st with
              | .error e => .error e
              | .ok st' => do_ast program (fuel + 1) rest st'
          from by simp [do_ast, hbdy]] at h
        cases hnest : do_ast program fuel bdy st with
        | error e =>
          rw [hnest] at h
          cases h
          exact ihf _ _ (hclosed i bdy hbdy) p hnest
        | ok st' =>
          rw [hnest] at h
          exact ihr _ hbrest p h

/-- C4.  For every program table produced by successful resolution from raw
(flat) scanned bodies, every `Id(path)` occurring anywhere inside any
resolved body — including nested inside `Split` and `Bracketed` nodes — is a
key of that same table; consequently the interpreter's table lookup at an
`Id` node never fails (no `MissingFunction`) while executing any function of
the table, whatever the stack, input and fuel. -/
theorem resolved_table_closed (fuel : Nat) (entry : Path) (fns : Fns)
    (imports : Imports) (defs : Defs) (fns' : Fns) (hflat : FlatFns fns)
    (h : parse_funcs fuel entry [] fns imports = .ok (defs, fns')) :
    (∀ p b, lookupP p defs = some b → ∀ q ∈ astIdsList b, containsP q defs = true)
    ∧ (∀ p b, lookupP p defs = some b → ∀ fuel2 st q,
        do_ast defs fuel2 b st ≠ .error (.MissingFunction q)) := by
  have hc0 : Closed1 [] fns := fun p b hb => by simp [lookupP] at hb
  have hd0 : Disj [] fns := fun p hp => by simp [containsP, lookupP] at hp
  obtain ⟨P, _⟩ := mainPost_all fuel entry [] fns imports defs fns' hc0 hd0 hflat h
  have hclosed : ∀ p b, lookupP p defs = some b →
      ∀ q ∈ astIdsList b, containsP q defs = true := by
    intro p b hb q hq
    rcases P.newClosed p b hb with h' | h'
    · simp [lookupP] at h'
    · exact h' q hq
  exact ⟨hclosed, fun p b hb fuel2 st q =>
    do_ast_no_missing defs hclosed fuel2 b st (hclosed p b hb) q⟩

/-- Witness for `resolved_table_closed` on the project
`main.clink = "_ g; g ;"` (entry `main._` calling `g`). -/
theorem resolved_table_closed_witness :
    containsP ["main", "g"]
      [(["main", "_"], [AST.Id ["main", "g"]]), (["main", "g"], [])] = true := by
  have hflat : FlatFns [(["main", "_"], [Token.Id ["g"]]), (["main", "g"], [])] := by
    intro p b hb
    simp only [lookupP] at hb
    split at hb
    · cases hb; rfl
    · split at hb
      · cases hb; rfl
      · cases hb
  have h := resolved_table_closed 3 ["main", "_"]
    [(["main", "_"], [Token.Id ["g"]]), (["main", "g"], [])] []
    [(["main", "_"], [AST.Id ["main", "g"]]), (["main", "g"], [])] [] hflat
    (by simp [parse_funcs, parse_funcs_list, resolveBody, resolveId, matchB,
      containsP, lookupP, removeP, scanPrefixes, prefixesOf, List.range,
      List.range.loop, parse_brackets, pbGo, closeAll, parse_colon, pcGo,
      parse_functions, buildRev])
  exact h.1 ["main", "_"] [AST.Id ["main", "g"]] (by simp [lookupP])
    ["main", "g"] (by simp [astIdsList])

/-- C3 (amended).  After the whole tree is scanned, the resolver resolves
the entry function and, transitively, every function referenced from a body
it resolves; its successful output table contains the entry (when defined)
and is closed under the references of the bodies it contains — but not
necessarily every defined function. -/
theorem resolver_resolves_reachable (fuel : Nat) (entry : Path) (fns : Fns)
    (imports : Imports) (defs : Defs) (fns' : Fns) (hflat : FlatFns fns)
    (h : parse_funcs fuel entry [] fns imports = .ok (defs, fns')) :
    (containsP entry fns = true → containsP entry defs = true)
    ∧ (∀ p b, lookupP p defs = some b → ∀ q ∈ astIdsList b, containsP q defs = true) := by
  have hc0 : Closed1 [] fns := fun p b hb => by simp [lookupP] at hb
  have hd0 : Disj [] fns := fun p hp => by simp [containsP, lookupP] at hp
  obtain ⟨P, hentry⟩ := mainPost_all fuel entry [] fns imports defs fns' hc0 hd0 hflat h
  constructor
  · intro hin
    rcases P.union entry (Or.inr hin) with h' | h'
    · exact h'
    · rw [hentry] at h'; cases h'
  · intro p b hb q hq
    rcases P.newClosed p b hb with h' | h'
    · simp [lookupP] at h'
    · exact h' q hq

/-- Witness for `resolver_resolves_reachable` on a two-function project
whose entry body is empty. -/
theorem resolver_resolves_reachable_witness :
    containsP ["main", "_"] [(["main", "_"], ([] : List AST))] = true := by
  have hflat : FlatFns [(["main", "_"], ([] : List Token)), (["main", "g"], [])] := by
    intro p b hb
    simp only [lookupP] at hb
    split at hb
    · cases hb; rfl
    · split at hb
      · cases hb; rfl
      · cases hb
  have h := resolver_resolves_reachable 3 ["main", "_"]
    [(["main", "_"], []), (["main", "g"], [])] [] [(["main", "_"], [])]
    [(["main", "g"], [])] hflat
    (by simp [parse_funcs, parse_funcs_list, resolveBody, lookupP, removeP,
      parse_brackets, pbGo, closeAll, parse_colon, pcGo, parse_functions, buildRev])
  exact h.1 (by simp [containsP, lookupP])

end Clink
